import Mathlib

/-!
# Vectornator reconciliation engine and state store: a shallow embedding

This file embeds the core of the `vectornator` sync tool in Lean 4:

* `MetadataManager.compareFiles` (src/core/metadata-manager.ts): the
  reconciliation algorithm that classifies local files into
  to-add / to-update / to-delete / unchanged;
* `MetadataManager.cleanup`, `MetadataManager.load`, `MetadataManager.save`
  (same file): the file-backed state store;
* `GitBranchMetadataManager` (src/core/git-branch-metadata-manager.ts):
  the git-branch-backed state store, modelled as command traces;
* `SyncEngine.sync` (src/core/sync-engine.ts): the execution of a sync plan,
  modelled as a pure state transformer over the persisted mapping and the
  remote store listing (remote operations follow the Remote Adapter
  contract: upload appends a fresh entry, update replaces in place,
  delete removes by identifier).

JavaScript objects keyed by strings and `Map`s are modelled as association
lists that preserve insertion order, matching JS iteration-order semantics.
-/

namespace Vectornator

/-- `FileMetadata` from src/types/index.ts (the fields the engine reads). -/
structure FileMetadata where
  path : String
  hash : String
  size : Nat
  lastModified : String
  mimeType : String
deriving Repr, DecidableEq

/-- `VectorStoreFile` from src/types/index.ts. -/
structure VectorStoreFile where
  id : String
  metadata : FileMetadata
deriving Repr, DecidableEq

/-- `FileEntry` from src/core/metadata-manager.ts. -/
structure FileEntry where
  fileId : String
  metadata : FileMetadata
  uploadedAt : String
  version : Nat
deriving Repr, DecidableEq

/-- A local file as passed to `compareFiles`: `{ path, metadata }`. -/
structure LocalFile where
  path : String
  metadata : FileMetadata
deriving Repr, DecidableEq

/-- `StoredMetadata` from src/core/metadata-manager.ts.  The `files` object
is an association list in insertion order (JS objects preserve string-key
insertion order). -/
structure StoredMetadata where
  version : String
  lastSync : String
  storeId : Option String
  files : List (String × FileEntry)
deriving Repr, DecidableEq

/-- JS object / `Map` read: `m[k]` (first entry with the key). -/
def objGet (m : List (String × α)) (k : String) : Option α :=
  (m.find? (fun p => p.1 = k)).map (fun p => p.2)

/-- JS object write `m[k] = v` and `Map.set`: replace in place when the key
is present, otherwise append (insertion order is preserved). -/
def objSet (m : List (String × α)) (k : String) (v : α) : List (String × α) :=
  if m.any (fun p => p.1 = k) then
    m.map (fun p => if p.1 = k then (k, v) else p)
  else
    m ++ [(k, v)]

/-- JS `delete m[k]` and `Map.delete`. -/
def objDelete (m : List (String × α)) (k : String) : List (String × α) :=
  m.filter (fun p => ¬ p.1 = k)

/-- The keys of an association list, in order. -/
def objKeys (m : List (String × α)) : List String :=
  m.map (fun p => p.1)

/-- An element of `compareFiles`'s `toUpdate` list:
`{ ...localFile, fileId }`. -/
structure UpdateItem where
  path : String
  metadata : FileMetadata
  fileId : String
deriving Repr, DecidableEq

/-- The result object of `compareFiles`.  `toDelete` holds
`{ fileId, path }` pairs. -/
structure Comparison where
  toAdd : List LocalFile
  toUpdate : List UpdateItem
  toDelete : List (String × String)
  unchanged : List (String × String)
deriving Repr, DecidableEq

/-- Internal state of the `for (const localFile of localFiles)` loop in
`compareFiles`: the three accumulators built so far and the mutable
`remoteFileMap`. -/
structure LoopState where
  toAdd : List LocalFile
  toUpdate : List UpdateItem
  unchanged : List (String × String)
  remoteMap : List (String × VectorStoreFile)
deriving Repr, DecidableEq

/-- `const remoteFileMap = new Map(); for (const file of remoteFiles)
remoteFileMap.set(file.id, file)`. -/
def buildRemoteMap (remoteFiles : List VectorStoreFile) :
    List (String × VectorStoreFile) :=
  remoteFiles.foldl (fun m r => objSet m r.id r) []

/-- The body of the local-file loop of `compareFiles`
(src/core/metadata-manager.ts): look the path up in `metadata.files`; a
missing entry or an unresolved `fileId` classifies to-add; otherwise compare
hashes, classify to-update or unchanged, and claim the identifier by
deleting it from the remote map. -/
def compareStep (files : List (String × FileEntry)) (st : LoopState)
    (lf : LocalFile) : LoopState :=
  match objGet files lf.path with
  | none => { st with toAdd := st.toAdd ++ [lf] }
  | some entry =>
    match objGet st.remoteMap entry.fileId with
    | none => { st with toAdd := st.toAdd ++ [lf] }
    | some _ =>
      if entry.metadata.hash ≠ lf.metadata.hash then
        { st with
            toUpdate := st.toUpdate ++ [⟨lf.path, lf.metadata, entry.fileId⟩],
            remoteMap := objDelete st.remoteMap entry.fileId }
      else
        { st with
            unchanged := st.unchanged ++ [(lf.path, entry.fileId)],
            remoteMap := objDelete st.remoteMap entry.fileId }

/-- Path reported for a to-delete identifier: reverse-search
`metadata.files` for the first entry with this `fileId`; fall back to the
remote entry's own `metadata.path` (`|| 'unknown'` treats the empty string
as absent). -/
def resolveDeletePath (files : List (String × FileEntry)) (fid : String)
    (rf : VectorStoreFile) : String :=
  match files.find? (fun pe => pe.2.fileId = fid) with
  | some pe => pe.1
  | none => if rf.metadata.path = "" then "unknown" else rf.metadata.path

/-- `MetadataManager.compareFiles` (src/core/metadata-manager.ts), as a
function of the loaded `metadata.files` mapping, the local file list, and
the remote file list. -/
def compareFiles (files : List (String × FileEntry))
    (localFiles : List LocalFile) (remoteFiles : List VectorStoreFile) :
    Comparison :=
  let final := localFiles.foldl (compareStep files)
    ⟨[], [], [], buildRemoteMap remoteFiles⟩
  { toAdd := final.toAdd
    toUpdate := final.toUpdate
    toDelete := final.remoteMap.map
      (fun p => (p.1, resolveDeletePath files p.1 p.2))
    unchanged := final.unchanged }

/-- `MetadataManager.cleanup` (src/core/metadata-manager.ts): drop every
entry whose `fileId` is not among the ids of `remoteFiles`. -/
def cleanup (files : List (String × FileEntry))
    (remoteFiles : List VectorStoreFile) : List (String × FileEntry) :=
  files.filter (fun pe => remoteFiles.any (fun r => r.id = pe.2.fileId))

/-! ## Further embedded definitions: comparison-loop views, the
execution model of `SyncEngine.sync`, and the storage backends -/

/-- The comparison loop run from empty accumulators over an arbitrary
remote-map state. -/
def runLoop (files : List (String × FileEntry)) (locals : List LocalFile)
    (m : List (String × VectorStoreFile)) : LoopState :=
  locals.foldl (compareStep files) ⟨[], [], [], m⟩

/-- The paths a loop state has classified (to-add, to-update, unchanged). -/
def loopPaths (st : LoopState) : List String :=
  st.toAdd.map (fun lf => lf.path) ++
    (st.toUpdate.map (fun u => u.path) ++ st.unchanged.map (fun pr => pr.1))

/-- The remote identifiers a loop state has claimed (to-update and
unchanged classifications). -/
def loopClaimed (st : LoopState) : List String :=
  st.toUpdate.map (fun u => u.fileId) ++ st.unchanged.map (fun pr => pr.2)

def toAddPaths (c : Comparison) : List String :=
  c.toAdd.map (fun lf => lf.path)

def toUpdatePaths (c : Comparison) : List String :=
  c.toUpdate.map (fun u => u.path)

def unchangedPaths (c : Comparison) : List String :=
  c.unchanged.map (fun pr => pr.1)

def toDeleteIds (c : Comparison) : List String :=
  c.toDelete.map (fun d => d.1)

def toUpdateIds (c : Comparison) : List String :=
  c.toUpdate.map (fun u => u.fileId)

def unchangedIds (c : Comparison) : List String :=
  c.unchanged.map (fun pr => pr.2)

/-- The loop state after processing a leading segment of local files:
the accumulators and the remaining remote lookup just before the next
local file is examined. -/
def loopStateAfter (files : List (String × FileEntry))
    (remotes : List VectorStoreFile) (pre : List LocalFile) : LoopState :=
  pre.foldl (compareStep files) ⟨[], [], [], buildRemoteMap remotes⟩

/-- What classification may read from a local file: path and fingerprint
(not size, not last-modified, not mime type). -/
def localSig (lf : LocalFile) : String × String :=
  (lf.path, lf.metadata.hash)

/-- What classification may read from a persisted entry: path key, remote
identifier and stored fingerprint. -/
def entrySig (pe : String × FileEntry) : String × String × String :=
  (pe.1, pe.2.fileId, pe.2.metadata.hash)

/-! ### Execution model of `SyncEngine.sync` (src/core/sync-engine.ts)

The engine executes the plan in three passes (additions, updates,
deletions), mutating the in-memory mapping entry by entry and recording
per-path results; a per-item failure records a scoped failure and skips
that item's mutations.  Remote operations follow the Remote Adapter
contract of spec §4.5: `uploadFile` returns a fresh identifier and adds an
entry to the listing, `updateFile` replaces the entry with the given
identifier in place, `deleteFile` removes it.  The provider's fresh
identifiers are modelled by an identifier supply `fid : Nat → String`, and
`enrichMetadata` by a function of the scanned file. -/

/-- The collaborator functions and failure pattern of one run. -/
structure RunCtx where
  enrich : LocalFile → FileMetadata
  fid : Nat → String
  now : String
  errMsg : String
  failAdd : String → Bool
  failUpdate : String → Bool
  failDelete : String → Bool

/-- The engine's mutable state during a run plus the `SyncResult` fields it
accumulates (`added`, `updated`, `deleted`, `failed`). -/
structure RunState where
  mapping : List (String × FileEntry)
  remote : List VectorStoreFile
  added : List String
  updated : List String
  deleted : List String
  failed : List (String × String)
  nextId : Nat
deriving Repr, DecidableEq

/-- `updateFile` on the remote listing: replace the entry with this
identifier in place. -/
def remoteUpdate (remote : List VectorStoreFile) (id : String)
    (md : FileMetadata) : List VectorStoreFile :=
  remote.map (fun r => if r.id = id then ⟨id, md⟩ else r)

/-- `deleteFile` on the remote listing. -/
def remoteDelete (remote : List VectorStoreFile) (id : String) :
    List VectorStoreFile :=
  remote.filter (fun r => ¬ r.id = id)

/-- Step 5 of `sync`: enrich and upload one to-add file; on success create
a fresh SyncEntry with version 1, record the path in `added`; on failure
record a scoped failure and continue. -/
def addStep (ctx : RunCtx) (st : RunState) (lf : LocalFile) : RunState :=
  if ctx.failAdd lf.path then
    { st with failed := st.failed ++ [(lf.path, ctx.errMsg)] }
  else
    { st with
        mapping := objSet st.mapping lf.path
          ⟨ctx.fid st.nextId, ctx.enrich lf, ctx.now, 1⟩,
        remote := st.remote ++ [⟨ctx.fid st.nextId, ctx.enrich lf⟩],
        added := st.added ++ [lf.path],
        nextId := st.nextId + 1 }

/-- Step 6 of `sync`: enrich and update one to-update file using the
carried-forward identifier; on success set the entry with version
`(existingEntry?.version || 0) + 1`. -/
def updateStep (ctx : RunCtx) (st : RunState) (u : UpdateItem) : RunState :=
  if ctx.failUpdate u.path then
    { st with failed := st.failed ++ [(u.path, ctx.errMsg)] }
  else
    { st with
        remote := remoteUpdate st.remote u.fileId
          (ctx.enrich ⟨u.path, u.metadata⟩),
        mapping := objSet st.mapping u.path
          ⟨u.fileId, ctx.enrich ⟨u.path, u.metadata⟩, ctx.now,
            (match objGet st.mapping u.path with
             | some e => e.version
             | none => 0) + 1⟩,
        updated := st.updated ++ [u.path] }

/-- Step 7 of `sync`: delete one to-delete entry by identifier and remove
its SyncEntry by path. -/
def deleteStep (ctx : RunCtx) (st : RunState) (d : String × String) :
    RunState :=
  if ctx.failDelete d.2 then
    { st with failed := st.failed ++ [(d.2, ctx.errMsg)] }
  else
    { st with
        remote := remoteDelete st.remote d.1,
        mapping := objDelete st.mapping d.2,
        deleted := st.deleted ++ [d.2] }

/-- Execute a computed plan: additions, then updates, then deletions
(steps 5–7 of `sync`). -/
def runPlan (ctx : RunCtx) (c : Comparison)
    (mapping : List (String × FileEntry)) (remote : List VectorStoreFile) :
    RunState :=
  c.toDelete.foldl (deleteStep ctx)
    (c.toUpdate.foldl (updateStep ctx)
      (c.toAdd.foldl (addStep ctx)
        ⟨mapping, remote, [], [], [], [], 0⟩))

/-- One non-dry-run `sync` over loaded mapping `files`, scanned `locals`
and remote listing `remotes`: compare, then execute the plan.  (Step 8
records `comparison.unchanged` paths as the result's unchanged list.) -/
def runSync (ctx : RunCtx) (files : List (String × FileEntry))
    (locals : List LocalFile) (remotes : List VectorStoreFile) : RunState :=
  runPlan ctx (compareFiles files locals remotes) files remotes

/-- A context in which every remote operation succeeds. -/
def noFailCtx (enrich : LocalFile → FileMetadata) (fid : Nat → String)
    (now errMsg : String) : RunCtx :=
  ⟨enrich, fid, now, errMsg, fun _ => false, fun _ => false, fun _ => false⟩

/-- The mapping entries a no-failure addition pass creates, with the
identifier supply consumed in order. -/
def addEntries (ctx : RunCtx) : Nat → List LocalFile →
    List (String × FileEntry)
  | _, [] => []
  | n, lf :: rest =>
      (lf.path, ⟨ctx.fid n, ctx.enrich lf, ctx.now, 1⟩) ::
        addEntries ctx (n + 1) rest

/-- The remote identifier the mapping stores for a local path (empty when
the path has no entry). -/
def entryIdOf (files : List (String × FileEntry)) (lf : LocalFile) : String :=
  match objGet files lf.path with
  | some e => e.fileId
  | none => ""

/-- Outcome of `fs.readFile` + `JSON.parse` in `MetadataManager.load`:
the file may be absent, present but not valid JSON, or parse to a
document. -/
inductive FileReadResult where
  | missing : FileReadResult
  | unparseable : FileReadResult
  | parsed : StoredMetadata → FileReadResult
deriving Repr, DecidableEq

/-- The fresh document `load` creates in its catch block:
`{ version: '1.0.0', lastSync: now, files: {} }`. -/
def freshMetadata (now : String) : StoredMetadata :=
  ⟨"1.0.0", now, none, []⟩

/-- `MetadataManager.load` (src/types/index.ts): return the cached
document if any; else read and parse the file; on ANY failure (missing
file or invalid JSON) return a freshly-initialized document instead of
raising. -/
def fileLoad (cache : Option StoredMetadata) (disk : FileReadResult)
    (now : String) : StoredMetadata :=
  match cache with
  | some m => m
  | none =>
    match disk with
    | FileReadResult.parsed m => m
    | _ => freshMetadata now

/-- `GitBranchMetadataManager.load` (src/core/sync-engine.ts):
`ensureOk` is whether `ensureMetadataBranch` succeeded, `gitShow` the
stdout of `git show branch:metadata.json` (`none` when the command
failed), `parse` the JSON parser.  An empty stdout falls through the
`if (stdout)` guard; every failure inside the `try` lands in the catch;
both paths end in `super.load()`. -/
def gitBranchLoad (ensureOk : Bool) (gitShow : Option String)
    (parse : String → Option StoredMetadata)
    (cache : Option StoredMetadata) (disk : FileReadResult)
    (now : String) : StoredMetadata :=
  if ensureOk then
    match gitShow with
    | some out =>
        if out = "" then fileLoad cache disk now
        else
          match parse out with
          | some m => m
          | none => fileLoad cache disk now
    | none => fileLoad cache disk now
  else fileLoad cache disk now

/-- A filesystem operation issued by `MetadataManager.save`. -/
inductive FsOp where
  | mkdirRecursive : String → FsOp
  | writeFile : String → String → FsOp
  | renameFile : String → String → FsOp
deriving Repr, DecidableEq

/-- Whether an operation is an atomic rename. -/
def isRename : FsOp → Bool
  | FsOp.renameFile _ _ => true
  | _ => false

/-- `MetadataManager.save` (src/types/index.ts): with no loaded document
it throws (`none`); otherwise it stamps `lastSync = now`, ensures the
directory (`dir` abstracts `path.dirname(metadataPath)`) and writes the
serialized document DIRECTLY to `metadataPath` — the returned trace is
the exact operation list the method issues.  Returns the stamped document
and the trace. -/
def saveModel (metadataPath dir : String) (cache : Option StoredMetadata)
    (now : String) (serialize : StoredMetadata → String) :
    Option (StoredMetadata × List FsOp) :=
  match cache with
  | none => none
  | some m =>
      some ({ m with lastSync := now },
        [FsOp.mkdirRecursive dir,
         FsOp.writeFile metadataPath (serialize { m with lastSync := now })])

/-- A command issued by `GitBranchMetadataManager` (src/core/sync-engine.ts).
`writeTreeFile` is the `fs.writeFile(this.metadataFile, ...)` into the
repository working directory during branch bootstrap; `hashObjectTemp`
stands for the temp-dir write plus `git hash-object -w` on it (the temp
file lives under /tmp, outside the working tree); `mirrorSaveFile` is the
`super.save()` backup write of `.vectornator/metadata.json` into the
working directory. -/
inductive GitCmd where
  | revParseVerify : String → GitCmd
  | revParseAbbrevHead : GitCmd
  | checkoutOrphan : String → GitCmd
  | rmRecursiveForce : GitCmd
  | writeTreeFile : String → GitCmd
  | addFile : String → GitCmd
  | commitIndex : GitCmd
  | checkout : String → GitCmd
  | gitShow : String → String → GitCmd
  | hashObjectTemp : String → GitCmd
  | mktree : GitCmd
  | revParse : String → GitCmd
  | commitTree : GitCmd
  | updateRef : String → GitCmd
  | pushBranch : String → GitCmd
  | fetchBranch : String → GitCmd
  | mirrorSaveFile : String → GitCmd
deriving Repr, DecidableEq

/-- Whether a command modifies the working tree or switches the
checked-out branch. -/
def modifiesWorkingTree : GitCmd → Bool
  | GitCmd.checkoutOrphan _ => true
  | GitCmd.checkout _ => true
  | GitCmd.rmRecursiveForce => true
  | GitCmd.writeTreeFile _ => true
  | GitCmd.mirrorSaveFile _ => true
  | _ => false

/-- `ensureMetadataBranch`: when `git rev-parse --verify branch`
succeeds, nothing else happens; when the branch is missing, bootstrap it
with `checkout --orphan`, `git rm -rf .`, a working-tree write of the
metadata file, `git add`, a commit, and a checkout back to the saved
current branch. -/
def ensureMetadataBranchOps (branch cur file : String)
    (branchExists : Bool) : List GitCmd :=
  if branchExists then [GitCmd.revParseVerify branch]
  else [GitCmd.revParseVerify branch, GitCmd.revParseAbbrevHead,
        GitCmd.checkoutOrphan branch, GitCmd.rmRecursiveForce,
        GitCmd.writeTreeFile file, GitCmd.addFile file, GitCmd.commitIndex,
        GitCmd.checkout cur]

/-- `GitBranchMetadataManager.load`: ensure the branch, then read the file
from it with `git show` (a pure object-database read; the fallback
`super.load()` only reads a file). -/
def gitLoadOps (branch cur file : String) (branchExists : Bool) :
    List GitCmd :=
  ensureMetadataBranchOps branch cur file branchExists ++
    [GitCmd.gitShow branch file]

/-- `GitBranchMetadataManager.save`: ensure the branch, then write through
the object database (`hash-object` on a /tmp copy, `mktree`,
`rev-parse` for the parent, `commit-tree`, `update-ref`) and finally
mirror the document to the file backend's path via `super.save()`. -/
def gitSaveOps (branch cur file : String) (branchExists : Bool) :
    List GitCmd :=
  ensureMetadataBranchOps branch cur file branchExists ++
    [GitCmd.hashObjectTemp file, GitCmd.mktree, GitCmd.revParse branch,
     GitCmd.commitTree, GitCmd.updateRef branch,
     GitCmd.mirrorSaveFile file]

/-- `pushMetadata`: a single `git push origin branch` (failures are
swallowed). -/
def gitPushOps (branch : String) : List GitCmd :=
  [GitCmd.pushBranch branch]

/-- `fetchMetadata`: a single `git fetch origin branch:branch` (failures
are swallowed). -/
def gitFetchOps (branch : String) : List GitCmd :=
  [GitCmd.fetchBranch branch]

/-! ## Association-list lemmas -/

theorem mem_objKeys {m : List (String × α)} {q : String} :
    q ∈ objKeys m ↔ ∃ p ∈ m, p.1 = q := by
  simp [objKeys, List.mem_map]

theorem any_key_iff {m : List (String × α)} {k : String} :
    (m.any (fun p => p.1 = k)) = true ↔ k ∈ objKeys m := by
  simp [objKeys, List.any_eq_true, List.mem_map]

theorem objGet_cons {p : String × α} {m : List (String × α)} {k : String} :
    objGet (p :: m) k = if p.1 = k then some p.2 else objGet m k := by
  by_cases h : p.1 = k <;> simp [objGet, List.find?_cons, h]

theorem objGet_eq_none_iff {m : List (String × α)} {k : String} :
    objGet m k = none ↔ k ∉ objKeys m := by
  induction m with
  | nil => simp [objGet, objKeys]
  | cons p m ih =>
    rw [objGet_cons]
    by_cases h : p.1 = k
    · simp [h, objKeys]
    · simp only [if_neg h, ih, objKeys, List.map_cons, List.mem_cons]
      constructor
      · intro hk hor
        rcases hor with h1 | h2
        · exact h h1.symm
        · exact hk h2
      · intro hk hmem
        exact hk (Or.inr hmem)

theorem objGet_mem {m : List (String × α)} {k : String} {v : α}
    (h : objGet m k = some v) : (k, v) ∈ m := by
  induction m with
  | nil => simp [objGet] at h
  | cons p m ih =>
    rw [objGet_cons] at h
    by_cases hp : p.1 = k
    · rw [if_pos hp] at h
      obtain ⟨a, b⟩ := p
      obtain rfl : a = k := hp
      obtain rfl : b = v := by simpa using h
      exact List.mem_cons_self _ _
    · rw [if_neg hp] at h
      exact List.mem_cons_of_mem _ (ih h)

theorem objGet_isSome_iff {m : List (String × α)} {k : String} :
    (objGet m k).isSome = true ↔ k ∈ objKeys m := by
  cases hg : objGet m k with
  | none =>
    rw [objGet_eq_none_iff] at hg
    simp [hg]
  | some v =>
    have := objGet_mem hg
    simp only [Option.isSome_some, true_iff]
    exact mem_objKeys.mpr ⟨(k, v), this, rfl⟩

theorem objGet_replaceAll {m : List (String × α)} {k q : String} {v : α} :
    objGet (m.map (fun p => if p.1 = k then (k, v) else p)) q =
      if q = k then (if m.any (fun p => p.1 = k) then some v else none)
      else objGet m q := by
  induction m with
  | nil => by_cases h : q = k <;> simp [objGet, h]
  | cons p m ih =>
    simp only [List.map_cons, List.any_cons]
    by_cases hp : p.1 = k
    · rw [if_pos hp, objGet_cons]
      by_cases hq : q = k
      · subst hq
        simp [hp]
      · have hkq : ¬ (k = q) := fun h => hq h.symm
        simp only [if_neg hkq, ih, if_neg hq, objGet_cons]
        have hpq : ¬ (p.1 = q) := fun h => hkq (hp ▸ h)
        simp [hpq]
    · rw [if_neg hp, objGet_cons, objGet_cons, ih]
      by_cases hq : q = k
      · subst hq
        simp only [decide_eq_false hp, Bool.false_or, if_pos rfl]
        simp [hp]
      · simp [hq]

theorem objGet_append {m₁ m₂ : List (String × α)} {k : String} :
    objGet (m₁ ++ m₂) k =
      match objGet m₁ k with
      | some v => some v
      | none => objGet m₂ k := by
  induction m₁ with
  | nil => simp [objGet]
  | cons p m ih =>
    rw [List.cons_append, objGet_cons, objGet_cons]
    by_cases hp : p.1 = k <;> simp [hp, ih]

theorem objGet_objSet {m : List (String × α)} {k q : String} {v : α} :
    objGet (objSet m k v) q = if q = k then some v else objGet m q := by
  unfold objSet
  by_cases hany : m.any (fun p => p.1 = k)
  · rw [if_pos hany, objGet_replaceAll, hany]
    simp
  · rw [if_neg hany, objGet_append]
    by_cases hq : q = k
    · subst hq
      have : objGet m q = none := by
        rw [objGet_eq_none_iff]
        intro hmem
        exact hany (any_key_iff.mpr hmem)
      simp [this, objGet_cons]
    · cases hg : objGet m q <;> simp [hg, objGet_cons, hq, objGet, Ne.symm hq]

theorem objKeys_objSet {m : List (String × α)} {k : String} {v : α} :
    objKeys (objSet m k v) =
      if m.any (fun p => p.1 = k) then objKeys m else objKeys m ++ [k] := by
  unfold objSet
  by_cases hany : m.any (fun p => p.1 = k)
  · rw [if_pos hany, if_pos hany]
    simp only [objKeys, List.map_map]
    apply List.map_congr_left
    intro p _
    by_cases hp : p.1 = k <;> simp [hp]
  · rw [if_neg hany, if_neg hany]
    simp [objKeys]

theorem objDelete_sublist {m : List (String × α)} {k : String} :
    (objDelete m k).Sublist m :=
  List.filter_sublist m

theorem mem_objKeys_objDelete {m : List (String × α)} {k q : String} :
    q ∈ objKeys (objDelete m k) ↔ q ∈ objKeys m ∧ q ≠ k := by
  simp only [objDelete, objKeys, List.mem_map, List.mem_filter]
  constructor
  · rintro ⟨p, ⟨hm, hk⟩, rfl⟩
    refine ⟨⟨p, hm, rfl⟩, ?_⟩
    simpa using hk
  · rintro ⟨⟨p, hm, rfl⟩, hne⟩
    exact ⟨p, ⟨hm, by simpa using hne⟩, rfl⟩

theorem objGet_objDelete {m : List (String × α)} {k q : String} :
    objGet (objDelete m k) q = if q = k then none else objGet m q := by
  induction m with
  | nil => by_cases h : q = k <;> simp [objGet, objDelete, h]
  | cons p m ih =>
    simp only [objDelete] at ih ⊢
    rw [List.filter_cons]
    by_cases hp : p.1 = k
    · rw [if_neg (by simp [hp]), ih, objGet_cons]
      by_cases hq : q = k
      · simp [hq]
      · have hpq : ¬ (p.1 = q) := fun h => hq (h ▸ hp ▸ rfl)
        simp [hq, hpq]
    · rw [if_pos (by simp [hp]), objGet_cons, objGet_cons, ih]
      by_cases hq : q = k
      · subst hq
        have hpq : ¬ (p.1 = q) := hp
        simp [hpq]
      · simp [hq]

theorem objKeys_sublist_of_sublist {m₁ m₂ : List (String × α)}
    (h : m₁.Sublist m₂) : (objKeys m₁).Sublist (objKeys m₂) :=
  h.map _

theorem mem_objKeys_objSet {m : List (String × α)} {k a : String} {v : α} :
    a ∈ objKeys (objSet m k v) ↔ a ∈ objKeys m ∨ a = k := by
  rw [objKeys_objSet]
  by_cases hany : m.any (fun p => p.1 = k)
  · rw [if_pos hany]
    constructor
    · exact Or.inl
    · rintro (h | rfl)
      · exact h
      · exact any_key_iff.mp hany
  · rw [if_neg hany]
    simp

theorem nodup_objKeys_objSet {m : List (String × α)} {k : String} {v : α}
    (h : (objKeys m).Nodup) : (objKeys (objSet m k v)).Nodup := by
  rw [objKeys_objSet]
  by_cases hany : m.any (fun p => p.1 = k)
  · rw [if_pos hany]; exact h
  · rw [if_neg hany]
    have hk : k ∉ objKeys m := fun hmem => hany (any_key_iff.mpr hmem)
    simp [List.nodup_append, h, hk]

/-! ## Lemmas about `buildRemoteMap` -/

theorem mem_objKeys_buildRemoteMap_aux {a : String} :
    ∀ (rs : List VectorStoreFile) (m : List (String × VectorStoreFile)),
      a ∈ objKeys (rs.foldl (fun m r => objSet m r.id r) m) ↔
        a ∈ objKeys m ∨ a ∈ rs.map (fun r => r.id) := by
  intro rs
  induction rs with
  | nil => intro m; simp
  | cons r rest ih =>
    intro m
    rw [List.foldl_cons, ih, mem_objKeys_objSet]
    simp
    tauto

theorem mem_objKeys_buildRemoteMap {rs : List VectorStoreFile} {a : String} :
    a ∈ objKeys (buildRemoteMap rs) ↔ a ∈ rs.map (fun r => r.id) := by
  unfold buildRemoteMap
  rw [mem_objKeys_buildRemoteMap_aux]
  simp [objKeys]

theorem nodup_objKeys_buildRemoteMap {rs : List VectorStoreFile} :
    (objKeys (buildRemoteMap rs)).Nodup := by
  unfold buildRemoteMap
  have : ∀ (l : List VectorStoreFile) (m : List (String × VectorStoreFile)),
      (objKeys m).Nodup → (objKeys (l.foldl (fun m r => objSet m r.id r) m)).Nodup := by
    intro l
    induction l with
    | nil => intro m hm; exact hm
    | cons r rest ih =>
      intro m hm
      exact ih _ (nodup_objKeys_objSet hm)
  exact this rs [] (by simp [objKeys])

/-! ## Decomposition of the comparison loop -/

theorem compareStep_decomp (files : List (String × FileEntry))
    (st : LoopState) (lf : LocalFile) :
    compareStep files st lf =
      ⟨st.toAdd ++ (compareStep files ⟨[], [], [], st.remoteMap⟩ lf).toAdd,
       st.toUpdate ++ (compareStep files ⟨[], [], [], st.remoteMap⟩ lf).toUpdate,
       st.unchanged ++ (compareStep files ⟨[], [], [], st.remoteMap⟩ lf).unchanged,
       (compareStep files ⟨[], [], [], st.remoteMap⟩ lf).remoteMap⟩ := by
  unfold compareStep
  cases hmeta : objGet files lf.path with
  | none => simp
  | some e =>
    cases hr : objGet st.remoteMap e.fileId with
    | none => simp [hr]
    | some r =>
      by_cases h : e.metadata.hash = lf.metadata.hash <;> simp [hr, h]

theorem compareStep_remoteMap_sublist (files : List (String × FileEntry))
    (st : LoopState) (lf : LocalFile) :
    ((compareStep files st lf).remoteMap).Sublist st.remoteMap := by
  unfold compareStep
  cases hmeta : objGet files lf.path with
  | none => exact List.Sublist.refl _
  | some e =>
    cases hr : objGet st.remoteMap e.fileId with
    | none => simp [hr]
    | some r =>
      by_cases h : e.metadata.hash = lf.metadata.hash <;>
        simp [hr, h, objDelete_sublist]

theorem foldl_compareStep_decomp (files : List (String × FileEntry)) :
    ∀ (locals : List LocalFile) (st : LoopState),
      locals.foldl (compareStep files) st =
        ⟨st.toAdd ++ (runLoop files locals st.remoteMap).toAdd,
         st.toUpdate ++ (runLoop files locals st.remoteMap).toUpdate,
         st.unchanged ++ (runLoop files locals st.remoteMap).unchanged,
         (runLoop files locals st.remoteMap).remoteMap⟩ := by
  intro locals
  induction locals with
  | nil =>
    intro st
    simp [runLoop]
  | cons lf rest ih =>
    intro st
    rw [List.foldl_cons, ih]
    conv_rhs => rw [runLoop, List.foldl_cons,
      ih (compareStep files ⟨[], [], [], st.remoteMap⟩ lf)]
    rw [compareStep_decomp files st lf]
    simp [runLoop, List.append_assoc]

theorem runLoop_cons (files : List (String × FileEntry)) (lf : LocalFile)
    (rest : List LocalFile) (m : List (String × VectorStoreFile)) :
    runLoop files (lf :: rest) m =
      ⟨(compareStep files ⟨[], [], [], m⟩ lf).toAdd ++
         (runLoop files rest (compareStep files ⟨[], [], [], m⟩ lf).remoteMap).toAdd,
       (compareStep files ⟨[], [], [], m⟩ lf).toUpdate ++
         (runLoop files rest (compareStep files ⟨[], [], [], m⟩ lf).remoteMap).toUpdate,
       (compareStep files ⟨[], [], [], m⟩ lf).unchanged ++
         (runLoop files rest (compareStep files ⟨[], [], [], m⟩ lf).remoteMap).unchanged,
       (runLoop files rest (compareStep files ⟨[], [], [], m⟩ lf).remoteMap).remoteMap⟩ := by
  rw [runLoop, List.foldl_cons, foldl_compareStep_decomp]

theorem runLoop_remoteMap_sublist (files : List (String × FileEntry)) :
    ∀ (locals : List LocalFile) (m : List (String × VectorStoreFile)),
      ((runLoop files locals m).remoteMap).Sublist m := by
  intro locals
  induction locals with
  | nil => intro m; exact List.Sublist.refl _
  | cons lf rest ih =>
    intro m
    rw [runLoop_cons]
    exact List.Sublist.trans (ih _) (compareStep_remoteMap_sublist files _ lf)

/-! ## Loop invariants -/

theorem middle_exchange_perm (a b c d : List α) :
    ((a ++ b) ++ (c ++ d)).Perm ((a ++ c) ++ (b ++ d)) := by
  have h1 : (a ++ b) ++ (c ++ d) = a ++ ((b ++ c) ++ d) := by
    simp [List.append_assoc]
  have h2 : (a ++ c) ++ (b ++ d) = a ++ ((c ++ b) ++ d) := by
    simp [List.append_assoc]
  rw [h1, h2]
  exact ((List.perm_append_comm).append_right d).append_left a

/-- Full case analysis of one iteration of the comparison loop, started
from empty accumulators. -/
theorem compareStep_fields (files : List (String × FileEntry))
    (m : List (String × VectorStoreFile)) (lf : LocalFile) :
    (objGet files lf.path = none ∧
      compareStep files ⟨[], [], [], m⟩ lf = ⟨[lf], [], [], m⟩)
    ∨ (∃ e, objGet files lf.path = some e ∧ objGet m e.fileId = none ∧
        compareStep files ⟨[], [], [], m⟩ lf = ⟨[lf], [], [], m⟩)
    ∨ (∃ e r, objGet files lf.path = some e ∧ objGet m e.fileId = some r ∧
        e.metadata.hash ≠ lf.metadata.hash ∧
        compareStep files ⟨[], [], [], m⟩ lf =
          ⟨[], [⟨lf.path, lf.metadata, e.fileId⟩], [], objDelete m e.fileId⟩)
    ∨ (∃ e r, objGet files lf.path = some e ∧ objGet m e.fileId = some r ∧
        e.metadata.hash = lf.metadata.hash ∧
        compareStep files ⟨[], [], [], m⟩ lf =
          ⟨[], [], [(lf.path, e.fileId)], objDelete m e.fileId⟩) := by
  cases hmeta : objGet files lf.path with
  | none =>
    exact Or.inl ⟨rfl, by simp [compareStep, hmeta]⟩
  | some e =>
    cases hr : objGet m e.fileId with
    | none =>
      exact Or.inr (Or.inl ⟨e, rfl, hr, by simp [compareStep, hmeta, hr]⟩)
    | some r =>
      by_cases h : e.metadata.hash = lf.metadata.hash
      · exact Or.inr (Or.inr (Or.inr
          ⟨e, r, rfl, hr, h, by simp [compareStep, hmeta, hr, h]⟩))
      · exact Or.inr (Or.inr (Or.inl
          ⟨e, r, rfl, hr, h, by simp [compareStep, hmeta, hr, h]⟩))

theorem runLoop_path_count (files : List (String × FileEntry)) :
    ∀ (locals : List LocalFile) (m : List (String × VectorStoreFile))
      (q : String),
      (loopPaths (runLoop files locals m)).count q
        = (locals.map (fun lf => lf.path)).count q := by
  intro locals
  induction locals with
  | nil => intro m q; simp [runLoop, loopPaths]
  | cons lf rest ih =>
    intro m q
    rw [runLoop_cons]
    have ih1 := ih (compareStep files ⟨[], [], [], m⟩ lf).remoteMap q
    rcases compareStep_fields files m lf with
      ⟨_, hs⟩ | ⟨e, _, _, hs⟩ | ⟨e, r, _, _, _, hs⟩ | ⟨e, r, _, _, _, hs⟩ <;>
      rw [hs] at ih1 ⊢ <;>
      simp only [loopPaths, List.map_append, List.count_append, List.map_cons,
        List.count_cons, List.map_nil, List.count_nil, List.append_nil,
        List.nil_append, List.map] at ih1 ⊢ <;>
      simp [List.count_cons, List.count_singleton] at ih1 ⊢ <;>
      omega

theorem runLoop_claimed_perm (files : List (String × FileEntry))
    (lf : LocalFile) (rest : List LocalFile)
    (m : List (String × VectorStoreFile)) :
    (loopClaimed (runLoop files (lf :: rest) m)).Perm
      (loopClaimed (compareStep files ⟨[], [], [], m⟩ lf) ++
        loopClaimed (runLoop files rest
          (compareStep files ⟨[], [], [], m⟩ lf).remoteMap)) := by
  rw [runLoop_cons]
  simp only [loopClaimed, List.map_append]
  exact middle_exchange_perm _ _ _ _

theorem runLoop_claimed_inv (files : List (String × FileEntry)) :
    ∀ (locals : List LocalFile) (m : List (String × VectorStoreFile)),
      (loopClaimed (runLoop files locals m)).Nodup
      ∧ (∀ a ∈ loopClaimed (runLoop files locals m), a ∈ objKeys m)
      ∧ (∀ a ∈ loopClaimed (runLoop files locals m),
          a ∉ objKeys (runLoop files locals m).remoteMap) := by
  intro locals
  induction locals with
  | nil =>
    intro m
    refine ⟨by simp [runLoop, loopClaimed], ?_, ?_⟩ <;>
      simp [runLoop, loopClaimed]
  | cons lf rest ih =>
    intro m
    have hperm := runLoop_claimed_perm files lf rest m
    have hmapfinal : (runLoop files (lf :: rest) m).remoteMap =
        (runLoop files rest
          (compareStep files ⟨[], [], [], m⟩ lf).remoteMap).remoteMap := by
      rw [runLoop_cons]
    rcases compareStep_fields files m lf with
      ⟨_, hs⟩ | ⟨e, _, _, hs⟩ | ⟨e, r, _, hr, _, hs⟩ | ⟨e, r, _, hr, _, hs⟩ <;>
      rw [hs] at hperm hmapfinal
    -- to-add cases: the step claims nothing and leaves the map alone
    · obtain ⟨ih1, ih2, ih3⟩ := ih m
      have hcl : ∀ a, a ∈ loopClaimed (runLoop files (lf :: rest) m) ↔
          a ∈ loopClaimed (runLoop files rest m) := by
        intro a
        rw [hperm.mem_iff]
        simp [loopClaimed]
      refine ⟨hperm.nodup_iff.mpr (by simpa [loopClaimed] using ih1), ?_, ?_⟩
      · intro a ha; exact ih2 a ((hcl a).mp ha)
      · intro a ha; rw [hmapfinal]; exact ih3 a ((hcl a).mp ha)
    · obtain ⟨ih1, ih2, ih3⟩ := ih m
      have hcl : ∀ a, a ∈ loopClaimed (runLoop files (lf :: rest) m) ↔
          a ∈ loopClaimed (runLoop files rest m) := by
        intro a
        rw [hperm.mem_iff]
        simp [loopClaimed]
      refine ⟨hperm.nodup_iff.mpr (by simpa [loopClaimed] using ih1), ?_, ?_⟩
      · intro a ha; exact ih2 a ((hcl a).mp ha)
      · intro a ha; rw [hmapfinal]; exact ih3 a ((hcl a).mp ha)
    -- claiming cases: the step claims `e.fileId` and deletes it
    all_goals {
      obtain ⟨ih1, ih2, ih3⟩ := ih (objDelete m e.fileId)
      have hid : e.fileId ∈ objKeys m := by
        rw [← objGet_isSome_iff, hr]; rfl
      have hcl : ∀ a, a ∈ loopClaimed (runLoop files (lf :: rest) m) ↔
          (a = e.fileId ∨
            a ∈ loopClaimed (runLoop files rest (objDelete m e.fileId))) := by
        intro a
        rw [hperm.mem_iff]
        simp [loopClaimed]
      have hnotin : e.fileId ∉
          loopClaimed (runLoop files rest (objDelete m e.fileId)) := by
        intro hmem
        have := ih2 _ hmem
        rw [mem_objKeys_objDelete] at this
        exact this.2 rfl
      refine ⟨?_, ?_, ?_⟩
      · rw [hperm.nodup_iff]
        simp only [loopClaimed, List.map_nil, List.nil_append,
          List.append_nil, List.map_cons]
        simp only [List.singleton_append, List.nodup_cons]
        constructor
        · intro h
          exact hnotin (by simpa [loopClaimed] using h)
        · simpa [loopClaimed] using ih1
      · intro a ha
        rcases (hcl a).mp ha with rfl | hmem
        · exact hid
        · exact (mem_objKeys_objDelete.mp (ih2 a hmem)).1
      · intro a ha
        rw [hmapfinal]
        rcases (hcl a).mp ha with rfl | hmem
        · intro hbad
          have hsub := objKeys_sublist_of_sublist
            (runLoop_remoteMap_sublist files rest (objDelete m e.fileId))
          have := hsub.subset hbad
          rw [mem_objKeys_objDelete] at this
          exact this.2 rfl
        · exact ih3 a hmem
    }

theorem runLoop_key_cases (files : List (String × FileEntry)) :
    ∀ (locals : List LocalFile) (m : List (String × VectorStoreFile))
      (a : String), a ∈ objKeys m →
      a ∈ objKeys (runLoop files locals m).remoteMap ∨
        a ∈ loopClaimed (runLoop files locals m) := by
  intro locals
  induction locals with
  | nil =>
    intro m a ha
    exact Or.inl ha
  | cons lf rest ih =>
    intro m a ha
    have hperm := runLoop_claimed_perm files lf rest m
    have hmapfinal : (runLoop files (lf :: rest) m).remoteMap =
        (runLoop files rest
          (compareStep files ⟨[], [], [], m⟩ lf).remoteMap).remoteMap := by
      rw [runLoop_cons]
    rcases compareStep_fields files m lf with
      ⟨_, hs⟩ | ⟨e, _, _, hs⟩ | ⟨e, r, _, hr, _, hs⟩ | ⟨e, r, _, hr, _, hs⟩ <;>
      rw [hs] at hperm hmapfinal
    · rcases ih m a ha with h | h
      · exact Or.inl (by rw [hmapfinal]; exact h)
      · exact Or.inr (hperm.mem_iff.mpr (List.mem_append_right _ h))
    · rcases ih m a ha with h | h
      · exact Or.inl (by rw [hmapfinal]; exact h)
      · exact Or.inr (hperm.mem_iff.mpr (List.mem_append_right _ h))
    all_goals {
      by_cases hae : a = e.fileId
      · exact Or.inr (hperm.mem_iff.mpr
          (List.mem_append_left _ (by simp [loopClaimed, hae])))
      · have ha' : a ∈ objKeys (objDelete m e.fileId) :=
          mem_objKeys_objDelete.mpr ⟨ha, hae⟩
        rcases ih (objDelete m e.fileId) a ha' with h | h
        · exact Or.inl (by rw [hmapfinal]; exact h)
        · exact Or.inr (hperm.mem_iff.mpr (List.mem_append_right _ h))
    }

theorem runLoop_toAdd_sound (files : List (String × FileEntry)) :
    ∀ (locals : List LocalFile) (m : List (String × VectorStoreFile))
      (x : LocalFile), x ∈ (runLoop files locals m).toAdd → x ∈ locals := by
  intro locals
  induction locals with
  | nil => intro m x hx; simp [runLoop] at hx
  | cons lf rest ih =>
    intro m x hx
    rw [runLoop_cons] at hx
    rcases compareStep_fields files m lf with
      ⟨_, hs⟩ | ⟨e, _, _, hs⟩ | ⟨e, r, _, hr, _, hs⟩ | ⟨e, r, _, hr, _, hs⟩ <;>
      rw [hs] at hx <;>
      simp only [List.mem_append, List.mem_singleton, List.not_mem_nil,
        false_or] at hx
    · rcases hx with rfl | hx
      · exact List.mem_cons_self _ _
      · exact List.mem_cons_of_mem _ (ih _ x hx)
    · rcases hx with rfl | hx
      · exact List.mem_cons_self _ _
      · exact List.mem_cons_of_mem _ (ih _ x hx)
    · exact List.mem_cons_of_mem _ (ih _ x hx)
    · exact List.mem_cons_of_mem _ (ih _ x hx)

theorem runLoop_toUpdate_sound (files : List (String × FileEntry)) :
    ∀ (locals : List LocalFile) (m : List (String × VectorStoreFile))
      (u : UpdateItem), u ∈ (runLoop files locals m).toUpdate →
      ∃ lf ∈ locals, ∃ e, objGet files lf.path = some e ∧
        u = ⟨lf.path, lf.metadata, e.fileId⟩ ∧
        ¬ e.metadata.hash = lf.metadata.hash := by
  intro locals
  induction locals with
  | nil => intro m u hu; simp [runLoop] at hu
  | cons lf rest ih =>
    intro m u hu
    rw [runLoop_cons] at hu
    rcases compareStep_fields files m lf with
      ⟨_, hs⟩ | ⟨e, hm, _, hs⟩ | ⟨e, r, hm, hr, hne, hs⟩ |
      ⟨e, r, hm, hr, heq, hs⟩ <;>
      rw [hs] at hu <;>
      simp only [List.mem_append, List.mem_singleton, List.not_mem_nil,
        false_or] at hu
    · obtain ⟨lf', hlf', rest'⟩ := ih _ u hu
      exact ⟨lf', List.mem_cons_of_mem _ hlf', rest'⟩
    · obtain ⟨lf', hlf', rest'⟩ := ih _ u hu
      exact ⟨lf', List.mem_cons_of_mem _ hlf', rest'⟩
    · rcases hu with rfl | hu
      · exact ⟨lf, List.mem_cons_self _ _, e, hm, rfl, hne⟩
      · obtain ⟨lf', hlf', rest'⟩ := ih _ u hu
        exact ⟨lf', List.mem_cons_of_mem _ hlf', rest'⟩
    · obtain ⟨lf', hlf', rest'⟩ := ih _ u hu
      exact ⟨lf', List.mem_cons_of_mem _ hlf', rest'⟩

theorem runLoop_unchanged_sound (files : List (String × FileEntry)) :
    ∀ (locals : List LocalFile) (m : List (String × VectorStoreFile))
      (pr : String × String), pr ∈ (runLoop files locals m).unchanged →
      ∃ lf ∈ locals, ∃ e, objGet files lf.path = some e ∧
        pr = (lf.path, e.fileId) ∧
        e.metadata.hash = lf.metadata.hash := by
  intro locals
  induction locals with
  | nil => intro m pr hpr; simp [runLoop] at hpr
  | cons lf rest ih =>
    intro m pr hpr
    rw [runLoop_cons] at hpr
    rcases compareStep_fields files m lf with
      ⟨_, hs⟩ | ⟨e, hm, _, hs⟩ | ⟨e, r, hm, hr, hne, hs⟩ |
      ⟨e, r, hm, hr, heq, hs⟩ <;>
      rw [hs] at hpr <;>
      simp only [List.mem_append, List.mem_singleton, List.not_mem_nil,
        false_or] at hpr
    · obtain ⟨lf', hlf', rest'⟩ := ih _ pr hpr
      exact ⟨lf', List.mem_cons_of_mem _ hlf', rest'⟩
    · obtain ⟨lf', hlf', rest'⟩ := ih _ pr hpr
      exact ⟨lf', List.mem_cons_of_mem _ hlf', rest'⟩
    · obtain ⟨lf', hlf', rest'⟩ := ih _ pr hpr
      exact ⟨lf', List.mem_cons_of_mem _ hlf', rest'⟩
    · rcases hpr with rfl | hpr
      · exact ⟨lf, List.mem_cons_self _ _, e, hm, rfl, heq⟩
      · obtain ⟨lf', hlf', rest'⟩ := ih _ pr hpr
        exact ⟨lf', List.mem_cons_of_mem _ hlf', rest'⟩

/-- `compareFiles` expressed through `runLoop`. -/
theorem compareFiles_eq_runLoop (files : List (String × FileEntry))
    (localFiles : List LocalFile) (remoteFiles : List VectorStoreFile) :
    compareFiles files localFiles remoteFiles =
      { toAdd := (runLoop files localFiles (buildRemoteMap remoteFiles)).toAdd
        toUpdate := (runLoop files localFiles (buildRemoteMap remoteFiles)).toUpdate
        toDelete := (runLoop files localFiles (buildRemoteMap remoteFiles)).remoteMap.map
          (fun p => (p.1, resolveDeletePath files p.1 p.2))
        unchanged := (runLoop files localFiles (buildRemoteMap remoteFiles)).unchanged } :=
  rfl

/-! ## Projections of a `Comparison` -/

theorem toDeleteIds_compareFiles (files : List (String × FileEntry))
    (locals : List LocalFile) (remotes : List VectorStoreFile) :
    toDeleteIds (compareFiles files locals remotes) =
      objKeys (runLoop files locals (buildRemoteMap remotes)).remoteMap := by
  rw [compareFiles_eq_runLoop]
  simp [toDeleteIds, objKeys, List.map_map]

/-! ## Final-state extension helpers -/

theorem mem_toAdd_final (files : List (String × FileEntry))
    (suf : List LocalFile) (st1 : LoopState) {x : LocalFile}
    (hx : x ∈ st1.toAdd) :
    x ∈ (suf.foldl (compareStep files) st1).toAdd := by
  rw [foldl_compareStep_decomp]
  exact List.mem_append_left _ hx

theorem mem_toUpdate_final (files : List (String × FileEntry))
    (suf : List LocalFile) (st1 : LoopState) {u : UpdateItem}
    (hu : u ∈ st1.toUpdate) :
    u ∈ (suf.foldl (compareStep files) st1).toUpdate := by
  rw [foldl_compareStep_decomp]
  exact List.mem_append_left _ hu

theorem mem_unchanged_final (files : List (String × FileEntry))
    (suf : List LocalFile) (st1 : LoopState) {pr : String × String}
    (hpr : pr ∈ st1.unchanged) :
    pr ∈ (suf.foldl (compareStep files) st1).unchanged := by
  rw [foldl_compareStep_decomp]
  exact List.mem_append_left _ hpr

theorem not_mem_keys_final (files : List (String × FileEntry))
    (suf : List LocalFile) (st1 : LoopState) {a : String}
    (ha : a ∉ objKeys st1.remoteMap) :
    a ∉ objKeys (suf.foldl (compareStep files) st1).remoteMap := by
  rw [foldl_compareStep_decomp]
  intro hmem
  exact ha ((objKeys_sublist_of_sublist
    (runLoop_remoteMap_sublist files suf st1.remoteMap)).subset hmem)

theorem compareFiles_toAdd_split (files : List (String × FileEntry))
    (remotes : List VectorStoreFile) (pre suf : List LocalFile)
    (lf : LocalFile) :
    (compareFiles files (pre ++ lf :: suf) remotes).toAdd =
      (suf.foldl (compareStep files)
        (compareStep files (loopStateAfter files remotes pre) lf)).toAdd := by
  rw [compareFiles_eq_runLoop]
  simp only [runLoop, loopStateAfter, List.foldl_append, List.foldl_cons]

theorem compareFiles_toUpdate_split (files : List (String × FileEntry))
    (remotes : List VectorStoreFile) (pre suf : List LocalFile)
    (lf : LocalFile) :
    (compareFiles files (pre ++ lf :: suf) remotes).toUpdate =
      (suf.foldl (compareStep files)
        (compareStep files (loopStateAfter files remotes pre) lf)).toUpdate := by
  rw [compareFiles_eq_runLoop]
  simp only [runLoop, loopStateAfter, List.foldl_append, List.foldl_cons]

theorem compareFiles_unchanged_split (files : List (String × FileEntry))
    (remotes : List VectorStoreFile) (pre suf : List LocalFile)
    (lf : LocalFile) :
    (compareFiles files (pre ++ lf :: suf) remotes).unchanged =
      (suf.foldl (compareStep files)
        (compareStep files (loopStateAfter files remotes pre) lf)).unchanged := by
  rw [compareFiles_eq_runLoop]
  simp only [runLoop, loopStateAfter, List.foldl_append, List.foldl_cons]

theorem compareFiles_toDeleteIds_split (files : List (String × FileEntry))
    (remotes : List VectorStoreFile) (pre suf : List LocalFile)
    (lf : LocalFile) :
    toDeleteIds (compareFiles files (pre ++ lf :: suf) remotes) =
      objKeys (suf.foldl (compareStep files)
        (compareStep files (loopStateAfter files remotes pre) lf)).remoteMap := by
  rw [toDeleteIds_compareFiles]
  simp only [runLoop, loopStateAfter, List.foldl_append, List.foldl_cons]

/-- C1: for every local file list, remote entry list and persisted mapping,
`compareFiles` classifies each local file as the spec states.  The file's
position in the scan is `pre ++ lf :: suf`; `loopStateAfter` is the remote
lookup as it stands when `lf` is examined (identifiers claimed by files in
`pre` have already been removed, per §4.3 step 2 of the spec).  A missing
`SyncEntry` or an unresolved remote identifier classifies to-add; a resolved
identifier with differing fingerprint classifies to-update carrying the
existing identifier, and the identifier is claimed (so it is never reported
in to-delete); a resolved identifier with equal fingerprint classifies
unchanged and is likewise claimed. -/
theorem compareFiles_classification
    (files : List (String × FileEntry)) (remotes : List VectorStoreFile)
    (pre suf : List LocalFile) (lf : LocalFile) :
    ((objGet files lf.path = none →
        lf ∈ (compareFiles files (pre ++ lf :: suf) remotes).toAdd)
     ∧ (∀ e, objGet files lf.path = some e →
        objGet (loopStateAfter files remotes pre).remoteMap e.fileId = none →
        lf ∈ (compareFiles files (pre ++ lf :: suf) remotes).toAdd)
     ∧ (∀ e r, objGet files lf.path = some e →
        objGet (loopStateAfter files remotes pre).remoteMap e.fileId = some r →
        e.metadata.hash ≠ lf.metadata.hash →
        (⟨lf.path, lf.metadata, e.fileId⟩ : UpdateItem) ∈
            (compareFiles files (pre ++ lf :: suf) remotes).toUpdate
          ∧ e.fileId ∉
            toDeleteIds (compareFiles files (pre ++ lf :: suf) remotes))
     ∧ (∀ e r, objGet files lf.path = some e →
        objGet (loopStateAfter files remotes pre).remoteMap e.fileId = some r →
        e.metadata.hash = lf.metadata.hash →
        (lf.path, e.fileId) ∈
            (compareFiles files (pre ++ lf :: suf) remotes).unchanged
          ∧ e.fileId ∉
            toDeleteIds (compareFiles files (pre ++ lf :: suf) remotes))) := by
  refine ⟨?_, ?_, ?_, ?_⟩
  · intro h
    rw [compareFiles_toAdd_split]
    have hstep : compareStep files (loopStateAfter files remotes pre) lf
        = { loopStateAfter files remotes pre with
            toAdd := (loopStateAfter files remotes pre).toAdd ++ [lf] } := by
      simp [compareStep, h]
    rw [hstep]
    exact mem_toAdd_final files suf _ (by simp)
  · intro e he hr
    rw [compareFiles_toAdd_split]
    have hstep : compareStep files (loopStateAfter files remotes pre) lf
        = { loopStateAfter files remotes pre with
            toAdd := (loopStateAfter files remotes pre).toAdd ++ [lf] } := by
      simp [compareStep, he, hr]
    rw [hstep]
    exact mem_toAdd_final files suf _ (by simp)
  · intro e r he hr hne
    have hstep : compareStep files (loopStateAfter files remotes pre) lf
        = { loopStateAfter files remotes pre with
            toUpdate := (loopStateAfter files remotes pre).toUpdate ++
              [⟨lf.path, lf.metadata, e.fileId⟩],
            remoteMap := objDelete
              (loopStateAfter files remotes pre).remoteMap e.fileId } := by
      simp [compareStep, he, hr, hne]
    constructor
    · rw [compareFiles_toUpdate_split, hstep]
      exact mem_toUpdate_final files suf _ (by simp)
    · rw [compareFiles_toDeleteIds_split, hstep]
      exact not_mem_keys_final files suf _
        (by intro hmem
            exact (mem_objKeys_objDelete.mp hmem).2 rfl)
  · intro e r he hr heq
    have hstep : compareStep files (loopStateAfter files remotes pre) lf
        = { loopStateAfter files remotes pre with
            unchanged := (loopStateAfter files remotes pre).unchanged ++
              [(lf.path, e.fileId)],
            remoteMap := objDelete
              (loopStateAfter files remotes pre).remoteMap e.fileId } := by
      simp [compareStep, he, hr, heq]
    constructor
    · rw [compareFiles_unchanged_split, hstep]
      exact mem_unchanged_final files suf _ (by simp)
    · rw [compareFiles_toDeleteIds_split, hstep]
      exact not_mem_keys_final files suf _
        (by intro hmem
            exact (mem_objKeys_objDelete.mp hmem).2 rfl)

/-- Witness for C1 at concrete inputs: an unchanged file (entry present,
identifier resolved, equal fingerprints) and a missing-entry file. -/
theorem compareFiles_classification_witness :
    (("a.md", "A") ∈ (compareFiles
        [("a.md", ⟨"A", ⟨"a.md", "h1", 1, "t", "md"⟩, "t", 1⟩)]
        ([] ++ (⟨"a.md", ⟨"a.md", "h1", 1, "t2", "md"⟩⟩ : LocalFile) :: [])
        [⟨"A", ⟨"a.md", "h1", 1, "t", "md"⟩⟩]).unchanged
      ∧ "A" ∉ toDeleteIds (compareFiles
        [("a.md", ⟨"A", ⟨"a.md", "h1", 1, "t", "md"⟩, "t", 1⟩)]
        ([] ++ (⟨"a.md", ⟨"a.md", "h1", 1, "t2", "md"⟩⟩ : LocalFile) :: [])
        [⟨"A", ⟨"a.md", "h1", 1, "t", "md"⟩⟩]))
    ∧ (⟨"b.md", ⟨"b.md", "h2", 1, "t", "md"⟩⟩ : LocalFile) ∈ (compareFiles
        [("a.md", ⟨"A", ⟨"a.md", "h1", 1, "t", "md"⟩, "t", 1⟩)]
        ([] ++ (⟨"b.md", ⟨"b.md", "h2", 1, "t", "md"⟩⟩ : LocalFile) :: [])
        [⟨"A", ⟨"a.md", "h1", 1, "t", "md"⟩⟩]).toAdd := by
  constructor
  · exact (compareFiles_classification
      [("a.md", ⟨"A", ⟨"a.md", "h1", 1, "t", "md"⟩, "t", 1⟩)]
      [⟨"A", ⟨"a.md", "h1", 1, "t", "md"⟩⟩] [] []
      ⟨"a.md", ⟨"a.md", "h1", 1, "t2", "md"⟩⟩).2.2.2
      ⟨"A", ⟨"a.md", "h1", 1, "t", "md"⟩, "t", 1⟩
      ⟨"A", ⟨"a.md", "h1", 1, "t", "md"⟩⟩ rfl rfl rfl
  · exact (compareFiles_classification
      [("a.md", ⟨"A", ⟨"a.md", "h1", 1, "t", "md"⟩, "t", 1⟩)]
      [⟨"A", ⟨"a.md", "h1", 1, "t", "md"⟩⟩] [] []
      ⟨"b.md", ⟨"b.md", "h2", 1, "t", "md"⟩⟩).1 rfl

theorem claimedIds_compareFiles (files : List (String × FileEntry))
    (locals : List LocalFile) (remotes : List VectorStoreFile) :
    toUpdateIds (compareFiles files locals remotes) ++
      unchangedIds (compareFiles files locals remotes) =
      loopClaimed (runLoop files locals (buildRemoteMap remotes)) := rfl

theorem pathsConcat_compareFiles (files : List (String × FileEntry))
    (locals : List LocalFile) (remotes : List VectorStoreFile) :
    toAddPaths (compareFiles files locals remotes) ++
      (toUpdatePaths (compareFiles files locals remotes) ++
        unchangedPaths (compareFiles files locals remotes)) =
      loopPaths (runLoop files locals (buildRemoteMap remotes)) := rfl

/-- C2: the partition invariant of the SyncPlan.  For a scan with distinct
relative paths (the FileRecord uniqueness invariant of §3), the path sets
of to-add, to-update and unchanged are pairwise disjoint and the identifier
set of to-delete is disjoint from the identifiers claimed by to-update and
unchanged; every local path lands in exactly one of to-add, to-update,
unchanged (its count in their concatenation is 1); and every remote entry
whose identifier was not claimed appears in to-delete. -/
theorem compareFiles_partition
    (files : List (String × FileEntry)) (locals : List LocalFile)
    (remotes : List VectorStoreFile)
    (hnd : (locals.map (fun lf => lf.path)).Nodup) :
    ∀ c, c = compareFiles files locals remotes →
    ((∀ p ∈ toAddPaths c, p ∉ toUpdatePaths c ∧ p ∉ unchangedPaths c)
      ∧ (∀ p ∈ toUpdatePaths c, p ∉ unchangedPaths c)
      ∧ (∀ i ∈ toDeleteIds c, i ∉ toUpdateIds c ∧ i ∉ unchangedIds c))
    ∧ (∀ lf ∈ locals,
        (toAddPaths c ++ (toUpdatePaths c ++ unchangedPaths c)).count lf.path
          = 1)
    ∧ (∀ r ∈ remotes, r.id ∉ toUpdateIds c → r.id ∉ unchangedIds c →
        r.id ∈ toDeleteIds c) := by
  intro c hc
  subst hc
  have hpaths := pathsConcat_compareFiles files locals remotes
  have hclaim := claimedIds_compareFiles files locals remotes
  have hdel := toDeleteIds_compareFiles files locals remotes
  have hcount := runLoop_path_count files locals (buildRemoteMap remotes)
  obtain ⟨hclNodup, hclSub, hclNotFinal⟩ :=
    runLoop_claimed_inv files locals (buildRemoteMap remotes)
  rw [List.nodup_iff_count_le_one] at hnd
  -- the total classified-path count of any path equals its local count
  have htotal : ∀ q : String,
      (toAddPaths (compareFiles files locals remotes)).count q +
        ((toUpdatePaths (compareFiles files locals remotes)).count q +
          (unchangedPaths (compareFiles files locals remotes)).count q)
        = (locals.map (fun lf => lf.path)).count q := by
    intro q
    have := hcount q
    rw [← hpaths] at this
    simpa [List.count_append] using this
  refine ⟨⟨?_, ?_, ?_⟩, ?_, ?_⟩
  · -- to-add paths are in neither to-update nor unchanged
    intro p hpA
    have h1 : 0 < (toAddPaths (compareFiles files locals remotes)).count p :=
      List.count_pos_iff.mpr hpA
    constructor
    · intro hpU
      have h2 : 0 <
          (toUpdatePaths (compareFiles files locals remotes)).count p :=
        List.count_pos_iff.mpr hpU
      have := htotal p
      have hle := hnd p
      omega
    · intro hpC
      have h2 : 0 <
          (unchangedPaths (compareFiles files locals remotes)).count p :=
        List.count_pos_iff.mpr hpC
      have := htotal p
      have hle := hnd p
      omega
  · -- to-update paths are not unchanged paths
    intro p hpU
    have h1 : 0 < (toUpdatePaths (compareFiles files locals remotes)).count p :=
      List.count_pos_iff.mpr hpU
    intro hpC
    have h2 : 0 < (unchangedPaths (compareFiles files locals remotes)).count p :=
      List.count_pos_iff.mpr hpC
    have := htotal p
    have hle := hnd p
    omega
  · -- to-delete identifiers were never claimed
    intro i hiD
    rw [hdel] at hiD
    constructor
    · intro hiU
      have : i ∈ loopClaimed (runLoop files locals (buildRemoteMap remotes)) := by
        rw [← hclaim]
        exact List.mem_append_left _ hiU
      exact hclNotFinal i this hiD
    · intro hiC
      have : i ∈ loopClaimed (runLoop files locals (buildRemoteMap remotes)) := by
        rw [← hclaim]
        exact List.mem_append_right _ hiC
      exact hclNotFinal i this hiD
  · -- every local path is classified exactly once
    intro lf hlf
    have hmem : lf.path ∈ locals.map (fun lf => lf.path) :=
      List.mem_map.mpr ⟨lf, hlf, rfl⟩
    have h1 : 0 < (locals.map (fun lf => lf.path)).count lf.path :=
      List.count_pos_iff.mpr hmem
    have hle := hnd lf.path
    have := htotal lf.path
    simp only [List.count_append]
    omega
  · -- every unclaimed remote identifier is reported in to-delete
    intro r hr hiU hiC
    have hkey : r.id ∈ objKeys (buildRemoteMap remotes) :=
      mem_objKeys_buildRemoteMap.mpr (List.mem_map.mpr ⟨r, hr, rfl⟩)
    rcases runLoop_key_cases files locals (buildRemoteMap remotes) r.id hkey with
      h | h
    · rw [hdel]
      exact h
    · exfalso
      rw [← hclaim] at h
      rcases List.mem_append.mp h with h | h
      · exact hiU h
      · exact hiC h

/-- Witness for C2 at a concrete plan: one unchanged file, one new file,
one stale remote entry. -/
theorem compareFiles_partition_witness :
    ((toAddPaths (compareFiles
        [("a.md", ⟨"A", ⟨"a.md", "h1", 1, "t", "md"⟩, "t", 1⟩)]
        [⟨"a.md", ⟨"a.md", "h1", 1, "t", "md"⟩⟩,
         ⟨"b.md", ⟨"b.md", "h2", 1, "t", "md"⟩⟩]
        [⟨"A", ⟨"a.md", "h1", 1, "t", "md"⟩⟩,
         ⟨"C", ⟨"c.md", "h3", 1, "t", "md"⟩⟩]) ++
      (toUpdatePaths (compareFiles
        [("a.md", ⟨"A", ⟨"a.md", "h1", 1, "t", "md"⟩, "t", 1⟩)]
        [⟨"a.md", ⟨"a.md", "h1", 1, "t", "md"⟩⟩,
         ⟨"b.md", ⟨"b.md", "h2", 1, "t", "md"⟩⟩]
        [⟨"A", ⟨"a.md", "h1", 1, "t", "md"⟩⟩,
         ⟨"C", ⟨"c.md", "h3", 1, "t", "md"⟩⟩]) ++
       unchangedPaths (compareFiles
        [("a.md", ⟨"A", ⟨"a.md", "h1", 1, "t", "md"⟩, "t", 1⟩)]
        [⟨"a.md", ⟨"a.md", "h1", 1, "t", "md"⟩⟩,
         ⟨"b.md", ⟨"b.md", "h2", 1, "t", "md"⟩⟩]
        [⟨"A", ⟨"a.md", "h1", 1, "t", "md"⟩⟩,
         ⟨"C", ⟨"c.md", "h3", 1, "t", "md"⟩⟩]))).count "a.md" = 1)
    ∧ "C" ∈ toDeleteIds (compareFiles
        [("a.md", ⟨"A", ⟨"a.md", "h1", 1, "t", "md"⟩, "t", 1⟩)]
        [⟨"a.md", ⟨"a.md", "h1", 1, "t", "md"⟩⟩,
         ⟨"b.md", ⟨"b.md", "h2", 1, "t", "md"⟩⟩]
        [⟨"A", ⟨"a.md", "h1", 1, "t", "md"⟩⟩,
         ⟨"C", ⟨"c.md", "h3", 1, "t", "md"⟩⟩]) := by
  constructor
  · exact (compareFiles_partition
      [("a.md", ⟨"A", ⟨"a.md", "h1", 1, "t", "md"⟩, "t", 1⟩)]
      [⟨"a.md", ⟨"a.md", "h1", 1, "t", "md"⟩⟩,
       ⟨"b.md", ⟨"b.md", "h2", 1, "t", "md"⟩⟩]
      [⟨"A", ⟨"a.md", "h1", 1, "t", "md"⟩⟩,
       ⟨"C", ⟨"c.md", "h3", 1, "t", "md"⟩⟩]
      (by decide) _ rfl).2.1 ⟨"a.md", ⟨"a.md", "h1", 1, "t", "md"⟩⟩
      (by decide)
  · exact (compareFiles_partition
      [("a.md", ⟨"A", ⟨"a.md", "h1", 1, "t", "md"⟩, "t", 1⟩)]
      [⟨"a.md", ⟨"a.md", "h1", 1, "t", "md"⟩⟩,
       ⟨"b.md", ⟨"b.md", "h2", 1, "t", "md"⟩⟩]
      [⟨"A", ⟨"a.md", "h1", 1, "t", "md"⟩⟩,
       ⟨"C", ⟨"c.md", "h3", 1, "t", "md"⟩⟩]
      (by decide) _ rfl).2.2 ⟨"C", ⟨"c.md", "h3", 1, "t", "md"⟩⟩
      (by decide) (by decide) (by decide)

/-! ## Fingerprint-only change detection (C3) -/

theorem objGet_entrySig_congr :
    ∀ (files₁ files₂ : List (String × FileEntry)),
      files₁.map entrySig = files₂.map entrySig →
      ∀ k, (objGet files₁ k).map (fun e => (e.fileId, e.metadata.hash)) =
        (objGet files₂ k).map (fun e => (e.fileId, e.metadata.hash)) := by
  intro files₁
  induction files₁ with
  | nil =>
    intro files₂ hf k
    have : files₂ = [] := by
      cases files₂ with
      | nil => rfl
      | cons p rest => simp [entrySig] at hf
    subst this
    rfl
  | cons p₁ rest₁ ih =>
    intro files₂ hf k
    cases files₂ with
    | nil => simp [entrySig] at hf
    | cons p₂ rest₂ =>
      simp only [List.map_cons, List.cons.injEq] at hf
      obtain ⟨hsig, hrest⟩ := hf
      have hkey : p₁.1 = p₂.1 := by
        have := congrArg (fun x => x.1) hsig
        simpa [entrySig] using this
      have hid : p₁.2.fileId = p₂.2.fileId := by
        have := congrArg (fun x => x.2.1) hsig
        simpa [entrySig] using this
      have hhash : p₁.2.metadata.hash = p₂.2.metadata.hash := by
        have := congrArg (fun x => x.2.2) hsig
        simpa [entrySig] using this
      rw [objGet_cons, objGet_cons, ← hkey]
      by_cases hk : p₁.1 = k
      · simp [hk, hid, hhash]
      · simp only [if_neg hk]
        exact ih rest₂ hrest k

theorem any_key_congr {m₁ m₂ : List (String × α)} {k : String}
    (hm : objKeys m₁ = objKeys m₂) :
    m₁.any (fun p => p.1 = k) = m₂.any (fun p => p.1 = k) := by
  rw [Bool.eq_iff_iff, any_key_iff, any_key_iff, hm]

theorem objKeys_objDelete {m : List (String × α)} {k : String} :
    objKeys (objDelete m k) = (objKeys m).filter (fun a => ¬ a = k) := by
  induction m with
  | nil => rfl
  | cons p m ih =>
    simp only [objDelete, objKeys, decide_not] at ih ⊢
    rw [List.filter_cons, List.map_cons, List.filter_cons]
    by_cases hp : p.1 = k
    · simp [hp, ih]
    · simp [hp, ih]

theorem objKeys_buildRemoteMap_congr :
    ∀ (rs₁ rs₂ : List VectorStoreFile),
      rs₁.map (fun r => r.id) = rs₂.map (fun r => r.id) →
      ∀ (m₁ m₂ : List (String × VectorStoreFile)), objKeys m₁ = objKeys m₂ →
      objKeys (rs₁.foldl (fun m r => objSet m r.id r) m₁) =
        objKeys (rs₂.foldl (fun m r => objSet m r.id r) m₂) := by
  intro rs₁
  induction rs₁ with
  | nil =>
    intro rs₂ hr m₁ m₂ hm
    have : rs₂ = [] := by
      cases rs₂ with
      | nil => rfl
      | cons r rest => simp at hr
    subst this
    exact hm
  | cons r₁ rest₁ ih =>
    intro rs₂ hr m₁ m₂ hm
    cases rs₂ with
    | nil => simp at hr
    | cons r₂ rest₂ =>
      simp only [List.map_cons, List.cons.injEq] at hr
      obtain ⟨hid, hrest⟩ := hr
      rw [List.foldl_cons, List.foldl_cons]
      refine ih rest₂ hrest _ _ ?_
      rw [objKeys_objSet, objKeys_objSet, ← hid, any_key_congr hm, hm]

/-- The classification outcome of the comparison loop depends only on the
path/fingerprint signatures of the local files, the key/identifier/
fingerprint signatures of the persisted entries, and the identifiers of the
remote lookup. -/
theorem runLoop_sig_congr (files₁ files₂ : List (String × FileEntry))
    (hf : files₁.map entrySig = files₂.map entrySig) :
    ∀ (locals₁ locals₂ : List LocalFile),
      locals₁.map localSig = locals₂.map localSig →
      ∀ (m₁ m₂ : List (String × VectorStoreFile)), objKeys m₁ = objKeys m₂ →
      (runLoop files₁ locals₁ m₁).toAdd.map localSig =
          (runLoop files₂ locals₂ m₂).toAdd.map localSig
        ∧ (runLoop files₁ locals₁ m₁).toUpdate.map (fun u => (u.path, u.fileId))
          = (runLoop files₂ locals₂ m₂).toUpdate.map (fun u => (u.path, u.fileId))
        ∧ (runLoop files₁ locals₁ m₁).unchanged =
          (runLoop files₂ locals₂ m₂).unchanged
        ∧ objKeys (runLoop files₁ locals₁ m₁).remoteMap =
          objKeys (runLoop files₂ locals₂ m₂).remoteMap := by
  intro locals₁
  induction locals₁ with
  | nil =>
    intro locals₂ hl m₁ m₂ hm
    have : locals₂ = [] := by
      cases locals₂ with
      | nil => rfl
      | cons lf rest => simp [localSig] at hl
    subst this
    exact ⟨rfl, rfl, rfl, hm⟩
  | cons lf₁ rest₁ ih =>
    intro locals₂ hl m₁ m₂ hm
    cases locals₂ with
    | nil => simp [localSig] at hl
    | cons lf₂ rest₂ =>
      simp only [List.map_cons, List.cons.injEq] at hl
      obtain ⟨hsig, hrest⟩ := hl
      have hp : lf₁.path = lf₂.path := by
        have := congrArg (fun x => x.1) hsig
        simpa [localSig] using this
      have hh : lf₁.metadata.hash = lf₂.metadata.hash := by
        have := congrArg (fun x => x.2) hsig
        simpa [localSig] using this
      have hget := objGet_entrySig_congr files₁ files₂ hf lf₁.path
      rw [hp] at hget
      rw [runLoop_cons, runLoop_cons]
      cases hg₁ : objGet files₁ lf₂.path with
      | none =>
        have hg₂ : objGet files₂ lf₂.path = none := by
          rw [hg₁] at hget
          cases hx : objGet files₂ lf₂.path with
          | none => rfl
          | some e => rw [hx] at hget; simp at hget
        have hs₁ : compareStep files₁ ⟨[], [], [], m₁⟩ lf₁ =
            ⟨[lf₁], [], [], m₁⟩ := by
          simp [compareStep, hp, hg₁]
        have hs₂ : compareStep files₂ ⟨[], [], [], m₂⟩ lf₂ =
            ⟨[lf₂], [], [], m₂⟩ := by
          simp [compareStep, hg₂]
        rw [hs₁, hs₂]
        obtain ⟨ih1, ih2, ih3, ih4⟩ := ih rest₂ hrest m₁ m₂ hm
        refine ⟨?_, ih2, ih3, ih4⟩
        rw [List.map_append, List.map_append, ih1]
        simp [hsig]
      | some e₁ =>
        rw [hg₁] at hget
        cases hg₂ : objGet files₂ lf₂.path with
        | none => rw [hg₂] at hget; simp at hget
        | some e₂ =>
          rw [hg₂] at hget
          simp at hget
          obtain ⟨hid, hhash⟩ := hget
          cases hr₁ : objGet m₁ e₁.fileId with
          | none =>
            have hr₂ : objGet m₂ e₂.fileId = none := by
              rw [objGet_eq_none_iff] at hr₁ ⊢
              rw [← hid, ← hm]
              exact hr₁
            have hs₁ : compareStep files₁ ⟨[], [], [], m₁⟩ lf₁ =
                ⟨[lf₁], [], [], m₁⟩ := by
              simp [compareStep, hp, hg₁, hr₁]
            have hs₂ : compareStep files₂ ⟨[], [], [], m₂⟩ lf₂ =
                ⟨[lf₂], [], [], m₂⟩ := by
              simp [compareStep, hg₂, hr₂]
            rw [hs₁, hs₂]
            obtain ⟨ih1, ih2, ih3, ih4⟩ := ih rest₂ hrest m₁ m₂ hm
            refine ⟨?_, ih2, ih3, ih4⟩
            rw [List.map_append, List.map_append, ih1]
            simp [hsig]
          | some r₁ =>
            have hr₂s : (objGet m₂ e₂.fileId).isSome = true := by
              rw [objGet_isSome_iff, ← hid, ← hm, ← objGet_isSome_iff, hr₁]
              rfl
            obtain ⟨r₂, hr₂⟩ := Option.isSome_iff_exists.mp hr₂s
            have hmdel : objKeys (objDelete m₁ e₁.fileId) =
                objKeys (objDelete m₂ e₂.fileId) := by
              rw [objKeys_objDelete, objKeys_objDelete, hm, hid]
            by_cases hne : e₁.metadata.hash = lf₁.metadata.hash
            · have hne₂ : e₂.metadata.hash = lf₂.metadata.hash := by
                rw [← hhash, ← hh]
                exact hne
              have hs₁ : compareStep files₁ ⟨[], [], [], m₁⟩ lf₁ =
                  ⟨[], [], [(lf₁.path, e₁.fileId)], objDelete m₁ e₁.fileId⟩ := by
                simp [compareStep, hp, hg₁, hr₁, hne]
              have hs₂ : compareStep files₂ ⟨[], [], [], m₂⟩ lf₂ =
                  ⟨[], [], [(lf₂.path, e₂.fileId)], objDelete m₂ e₂.fileId⟩ := by
                simp [compareStep, hg₂, hr₂, hne₂]
              rw [hs₁, hs₂]
              obtain ⟨ih1, ih2, ih3, ih4⟩ :=
                ih rest₂ hrest (objDelete m₁ e₁.fileId)
                  (objDelete m₂ e₂.fileId) hmdel
              refine ⟨ih1, ih2, ?_, ih4⟩
              rw [ih3]
              simp [hp, hid]
            · have hne₂ : ¬ e₂.metadata.hash = lf₂.metadata.hash := by
                rw [← hhash, ← hh]
                exact hne
              have hs₁ : compareStep files₁ ⟨[], [], [], m₁⟩ lf₁ =
                  ⟨[], [⟨lf₁.path, lf₁.metadata, e₁.fileId⟩], [],
                    objDelete m₁ e₁.fileId⟩ := by
                simp [compareStep, hp, hg₁, hr₁, hne]
              have hs₂ : compareStep files₂ ⟨[], [], [], m₂⟩ lf₂ =
                  ⟨[], [⟨lf₂.path, lf₂.metadata, e₂.fileId⟩], [],
                    objDelete m₂ e₂.fileId⟩ := by
                simp [compareStep, hg₂, hr₂, hne₂]
              rw [hs₁, hs₂]
              obtain ⟨ih1, ih2, ih3, ih4⟩ :=
                ih rest₂ hrest (objDelete m₁ e₁.fileId)
                  (objDelete m₂ e₂.fileId) hmdel
              refine ⟨ih1, ?_, ih3, ih4⟩
              rw [List.map_append, List.map_append, ih2]
              simp [hp, hid]

/-- C3: add/update/unchanged classification depends only on content
fingerprints.  Two `compareFiles` inputs that agree on local paths and
fingerprints, on persisted keys, identifiers and fingerprints, and on
remote identifiers — but differ arbitrarily in sizes, timestamps or other
metadata — classify identically: same to-add paths and fingerprints, same
to-update path/identifier pairs, same unchanged pairs. -/
theorem compareFiles_fingerprint_only
    (files₁ files₂ : List (String × FileEntry))
    (locals₁ locals₂ : List LocalFile)
    (remotes₁ remotes₂ : List VectorStoreFile)
    (hf : files₁.map entrySig = files₂.map entrySig)
    (hl : locals₁.map localSig = locals₂.map localSig)
    (hr : remotes₁.map (fun r => r.id) = remotes₂.map (fun r => r.id)) :
    (compareFiles files₁ locals₁ remotes₁).toAdd.map localSig =
        (compareFiles files₂ locals₂ remotes₂).toAdd.map localSig
      ∧ (compareFiles files₁ locals₁ remotes₁).toUpdate.map
          (fun u => (u.path, u.fileId)) =
        (compareFiles files₂ locals₂ remotes₂).toUpdate.map
          (fun u => (u.path, u.fileId))
      ∧ (compareFiles files₁ locals₁ remotes₁).unchanged =
        (compareFiles files₂ locals₂ remotes₂).unchanged := by
  have hm : objKeys (buildRemoteMap remotes₁) = objKeys (buildRemoteMap remotes₂) :=
    objKeys_buildRemoteMap_congr remotes₁ remotes₂ hr [] [] rfl
  obtain ⟨h1, h2, h3, _⟩ :=
    runLoop_sig_congr files₁ files₂ hf locals₁ locals₂ hl
      (buildRemoteMap remotes₁) (buildRemoteMap remotes₂) hm
  rw [compareFiles_eq_runLoop, compareFiles_eq_runLoop]
  exact ⟨h1, h2, h3⟩

/-- Witness for C3: touching a file's modification time (and size) without
changing its bytes yields the identical classification — the file stays
unchanged. -/
theorem compareFiles_fingerprint_only_witness :
    ((compareFiles
        [("a.md", ⟨"A", ⟨"a.md", "h1", 1, "t0", "md"⟩, "t0", 1⟩)]
        [⟨"a.md", ⟨"a.md", "h1", 1, "t0", "md"⟩⟩]
        [⟨"A", ⟨"a.md", "h1", 1, "t0", "md"⟩⟩]).unchanged =
      (compareFiles
        [("a.md", ⟨"A", ⟨"a.md", "h1", 7, "t9", "md"⟩, "t0", 1⟩)]
        [⟨"a.md", ⟨"a.md", "h1", 7, "t9", "md"⟩⟩]
        [⟨"A", ⟨"a.md", "h1", 7, "t9", "md"⟩⟩]).unchanged)
    ∧ (compareFiles
        [("a.md", ⟨"A", ⟨"a.md", "h1", 7, "t9", "md"⟩, "t0", 1⟩)]
        [⟨"a.md", ⟨"a.md", "h1", 7, "t9", "md"⟩⟩]
        [⟨"A", ⟨"a.md", "h1", 7, "t9", "md"⟩⟩]).toUpdate = [] := by
  constructor
  · exact (compareFiles_fingerprint_only
      [("a.md", ⟨"A", ⟨"a.md", "h1", 1, "t0", "md"⟩, "t0", 1⟩)]
      [("a.md", ⟨"A", ⟨"a.md", "h1", 7, "t9", "md"⟩, "t0", 1⟩)]
      [⟨"a.md", ⟨"a.md", "h1", 1, "t0", "md"⟩⟩]
      [⟨"a.md", ⟨"a.md", "h1", 7, "t9", "md"⟩⟩]
      [⟨"A", ⟨"a.md", "h1", 1, "t0", "md"⟩⟩]
      [⟨"A", ⟨"a.md", "h1", 7, "t9", "md"⟩⟩]
      (by decide) (by decide) (by decide)).2.2
  · decide

/-! ## Lemmas about the execution passes -/

theorem objGet_of_mem_nodup {m : List (String × α)}
    (hnd : (objKeys m).Nodup) {pe : String × α} (h : pe ∈ m) :
    objGet m pe.1 = some pe.2 := by
  induction m with
  | nil => simp at h
  | cons p rest ih =>
    simp only [objKeys, List.map_cons, List.nodup_cons] at hnd
    rcases List.mem_cons.mp h with rfl | h
    · rw [objGet_cons, if_pos rfl]
    · have hne : ¬ p.1 = pe.1 := by
        intro hbad
        exact hnd.1 (hbad ▸ mem_objKeys.mpr ⟨pe, h, rfl⟩)
      rw [objGet_cons, if_neg hne]
      exact ih hnd.2 h

theorem objKeys_addEntries (ctx : RunCtx) :
    ∀ (n : Nat) (l : List LocalFile),
      objKeys (addEntries ctx n l) = l.map (fun lf => lf.path) := by
  intro n l
  induction l generalizing n with
  | nil => rfl
  | cons lf rest ih =>
    have hih := ih (n + 1)
    simp only [addEntries, objKeys, List.map_cons] at hih ⊢
    rw [hih]

theorem addEntries_mem (ctx : RunCtx) :
    ∀ (n : Nat) (l : List LocalFile) (pe : String × FileEntry),
      pe ∈ addEntries ctx n l →
      ∃ lf ∈ l, ∃ i, n ≤ i ∧
        pe = (lf.path, ⟨ctx.fid i, ctx.enrich lf, ctx.now, 1⟩) := by
  intro n l
  induction l generalizing n with
  | nil => intro pe hpe; simp [addEntries] at hpe
  | cons lf rest ih =>
    intro pe hpe
    rcases List.mem_cons.mp hpe with rfl | hpe
    · exact ⟨lf, List.mem_cons_self _ _, n, Nat.le_refl n, rfl⟩
    · obtain ⟨lf', hlf', i, hi, hpe⟩ := ih (n + 1) pe hpe
      exact ⟨lf', List.mem_cons_of_mem _ hlf', i,
        Nat.le_of_succ_le hi, hpe⟩

theorem addEntries_ids_nodup (ctx : RunCtx)
    (hinj : Function.Injective ctx.fid) :
    ∀ (n : Nat) (l : List LocalFile),
      ((addEntries ctx n l).map (fun pe => pe.2.fileId)).Nodup := by
  intro n l
  induction l generalizing n with
  | nil => simp [addEntries]
  | cons lf rest ih =>
    simp only [addEntries, List.map_cons, List.nodup_cons]
    refine ⟨?_, ih (n + 1)⟩
    intro hmem
    obtain ⟨pe, hpe, hid⟩ := List.mem_map.mp hmem
    obtain ⟨lf', _, i, hi, rfl⟩ := addEntries_mem ctx (n + 1) rest pe hpe
    have : n = i := hinj hid.symm
    omega

theorem addEntries_ids_fresh (ctx : RunCtx) (ids : List String)
    (hfresh : ∀ i, ctx.fid i ∉ ids) :
    ∀ (n : Nat) (l : List LocalFile) (a : String),
      a ∈ (addEntries ctx n l).map (fun pe => pe.2.fileId) → a ∉ ids := by
  intro n l a ha
  obtain ⟨pe, hpe, rfl⟩ := List.mem_map.mp ha
  obtain ⟨lf, _, i, _, rfl⟩ := addEntries_mem ctx n l pe hpe
  exact hfresh i

theorem addEntries_objGet (ctx : RunCtx) :
    ∀ (n : Nat) (l : List LocalFile),
      (l.map (fun lf => lf.path)).Nodup →
      ∀ lf ∈ l, ∃ i, n ≤ i ∧
        objGet (addEntries ctx n l) lf.path =
          some ⟨ctx.fid i, ctx.enrich lf, ctx.now, 1⟩ := by
  intro n l
  induction l generalizing n with
  | nil => intro _ lf hlf; simp at hlf
  | cons lf0 rest ih =>
    intro hnd lf hlf
    simp only [List.map_cons, List.nodup_cons] at hnd
    rcases List.mem_cons.mp hlf with rfl | hlf
    · exact ⟨n, Nat.le_refl n, by rw [addEntries, objGet_cons, if_pos rfl]⟩
    · have hne : ¬ lf0.path = lf.path := by
        intro hbad
        exact hnd.1 (hbad ▸ List.mem_map.mpr ⟨lf, hlf, rfl⟩)
      obtain ⟨i, hi, hget⟩ := ih (n + 1) hnd.2 lf hlf
      exact ⟨i, Nat.le_of_succ_le hi,
        by rw [addEntries, objGet_cons, if_neg hne, hget]⟩

theorem foldl_addStep_fields (ctx : RunCtx) :
    ∀ (adds : List LocalFile) (st : RunState),
      (∀ lf ∈ adds, ctx.failAdd lf.path = false) →
      ((adds.foldl (addStep ctx) st).remote = st.remote ++
          (addEntries ctx st.nextId adds).map
            (fun pe => VectorStoreFile.mk pe.2.fileId pe.2.metadata))
      ∧ ((adds.foldl (addStep ctx) st).added =
          st.added ++ adds.map (fun lf => lf.path))
      ∧ ((adds.foldl (addStep ctx) st).updated = st.updated)
      ∧ ((adds.foldl (addStep ctx) st).deleted = st.deleted)
      ∧ ((adds.foldl (addStep ctx) st).failed = st.failed)
      ∧ ((adds.foldl (addStep ctx) st).nextId =
          st.nextId + adds.length) := by
  intro adds
  induction adds with
  | nil => intro st _; simp [addEntries]
  | cons lf rest ih =>
    intro st hok
    have hok0 : ctx.failAdd lf.path = false := hok lf (List.mem_cons_self _ _)
    have hstep : addStep ctx st lf =
        { st with
            mapping := objSet st.mapping lf.path
              ⟨ctx.fid st.nextId, ctx.enrich lf, ctx.now, 1⟩,
            remote := st.remote ++ [⟨ctx.fid st.nextId, ctx.enrich lf⟩],
            added := st.added ++ [lf.path],
            nextId := st.nextId + 1 } := by
      simp [addStep, hok0]
    rw [List.foldl_cons, hstep]
    obtain ⟨h1, h2, h3, h4, h5, h6⟩ := ih _
      (fun lf' h => hok lf' (List.mem_cons_of_mem _ h))
    refine ⟨?_, ?_, by simpa using h3, by simpa using h4,
      by simpa using h5, ?_⟩
    · rw [h1]
      simp [addEntries, List.append_assoc]
    · rw [h2]
      simp [List.append_assoc]
    · rw [h6]
      simp [List.length_cons]
      omega

theorem foldl_addStep_mapping (ctx : RunCtx) :
    ∀ (adds : List LocalFile) (st : RunState),
      (∀ lf ∈ adds, ctx.failAdd lf.path = false) →
      (adds.map (fun lf => lf.path)).Nodup →
      ∀ q, objGet (adds.foldl (addStep ctx) st).mapping q =
        match objGet (addEntries ctx st.nextId adds) q with
        | some e => some e
        | none => objGet st.mapping q := by
  intro adds
  induction adds with
  | nil => intro st _ _ q; simp [addEntries, objGet]
  | cons lf rest ih =>
    intro st hok hnd q
    simp only [List.map_cons, List.nodup_cons] at hnd
    have hok0 : ctx.failAdd lf.path = false := hok lf (List.mem_cons_self _ _)
    have hstep : addStep ctx st lf =
        { st with
            mapping := objSet st.mapping lf.path
              ⟨ctx.fid st.nextId, ctx.enrich lf, ctx.now, 1⟩,
            remote := st.remote ++ [⟨ctx.fid st.nextId, ctx.enrich lf⟩],
            added := st.added ++ [lf.path],
            nextId := st.nextId + 1 } := by
      simp [addStep, hok0]
    rw [List.foldl_cons, hstep,
      ih _ (fun lf' h => hok lf' (List.mem_cons_of_mem _ h)) hnd.2 q]
    simp only [addEntries, objGet_cons]
    by_cases hq : lf.path = q
    · subst hq
      have : objGet (addEntries ctx (st.nextId + 1) rest) lf.path = none := by
        rw [objGet_eq_none_iff, objKeys_addEntries]
        exact hnd.1
      rw [this, if_pos rfl]
      simp [objGet_objSet]
    · rw [if_neg hq]
      cases objGet (addEntries ctx (st.nextId + 1) rest) q with
      | some e => rfl
      | none => simp [objGet_objSet, Ne.symm hq, hq]

theorem remoteUpdate_ids (rem : List VectorStoreFile) (id : String)
    (md : FileMetadata) :
    (remoteUpdate rem id md).map (fun r => r.id) =
      rem.map (fun r => r.id) := by
  simp only [remoteUpdate, List.map_map]
  apply List.map_congr_left
  intro r _
  by_cases h : r.id = id <;> simp [h]

theorem foldl_updateStep_fields (ctx : RunCtx) :
    ∀ (ups : List UpdateItem) (st : RunState),
      (∀ u ∈ ups, ctx.failUpdate u.path = false) →
      ((ups.foldl (updateStep ctx) st).remote.map (fun r => r.id) =
          st.remote.map (fun r => r.id))
      ∧ ((ups.foldl (updateStep ctx) st).added = st.added)
      ∧ ((ups.foldl (updateStep ctx) st).updated =
          st.updated ++ ups.map (fun u => u.path))
      ∧ ((ups.foldl (updateStep ctx) st).deleted = st.deleted)
      ∧ ((ups.foldl (updateStep ctx) st).failed = st.failed)
      ∧ ((ups.foldl (updateStep ctx) st).nextId = st.nextId) := by
  intro ups
  induction ups with
  | nil => intro st _; simp
  | cons u rest ih =>
    intro st hok
    have hok0 : ctx.failUpdate u.path = false := hok u (List.mem_cons_self _ _)
    have hf0 : ¬ (ctx.failUpdate u.path = true) := by simp [hok0]
    have hstep : updateStep ctx st u =
        { st with
            remote := remoteUpdate st.remote u.fileId
              (ctx.enrich ⟨u.path, u.metadata⟩),
            mapping := objSet st.mapping u.path
              ⟨u.fileId, ctx.enrich ⟨u.path, u.metadata⟩, ctx.now,
                (match objGet st.mapping u.path with
                 | some e => e.version
                 | none => 0) + 1⟩,
            updated := st.updated ++ [u.path] } := by
      simp only [updateStep, if_neg hf0]
    rw [List.foldl_cons, hstep]
    obtain ⟨h1, h2, h3, h4, h5, h6⟩ := ih _
      (fun u' h => hok u' (List.mem_cons_of_mem _ h))
    refine ⟨?_, by simpa using h2, ?_, by simpa using h4,
      by simpa using h5, by simpa using h6⟩
    · rw [h1]
      simp [remoteUpdate_ids]
    · rw [h3]
      simp [List.append_assoc]

theorem foldl_updateStep_mapping_ne (ctx : RunCtx) :
    ∀ (ups : List UpdateItem) (st : RunState) (q : String),
      (∀ u ∈ ups, ¬ u.path = q) →
      objGet (ups.foldl (updateStep ctx) st).mapping q =
        objGet st.mapping q := by
  intro ups
  induction ups with
  | nil => intro st q _; rfl
  | cons u rest ih =>
    intro st q hne
    rw [List.foldl_cons,
      ih _ q (fun u' h => hne u' (List.mem_cons_of_mem _ h))]
    by_cases hf : ctx.failUpdate u.path
    · simp [updateStep, hf]
    · simp only [updateStep, if_neg hf]
      rw [objGet_objSet,
        if_neg (fun h => hne u (List.mem_cons_self _ _) h.symm)]

theorem foldl_updateStep_mapping_mem (ctx : RunCtx) :
    ∀ (ups : List UpdateItem) (st : RunState),
      (∀ u ∈ ups, ctx.failUpdate u.path = false) →
      ((ups.map (fun u => u.path)).Nodup) →
      ∀ u ∈ ups,
        objGet (ups.foldl (updateStep ctx) st).mapping u.path =
          some ⟨u.fileId, ctx.enrich ⟨u.path, u.metadata⟩, ctx.now,
            (match objGet st.mapping u.path with
             | some e => e.version
             | none => 0) + 1⟩ := by
  intro ups
  induction ups with
  | nil => intro st _ _ u hu; simp at hu
  | cons u0 rest ih =>
    intro st hok hnd u hu
    simp only [List.map_cons, List.nodup_cons] at hnd
    have hok0 : ctx.failUpdate u0.path = false :=
      hok u0 (List.mem_cons_self _ _)
    rw [List.foldl_cons]
    have hf0 : ¬ (ctx.failUpdate u0.path = true) := by simp [hok0]
    rcases List.mem_cons.mp hu with rfl | hu
    · rw [foldl_updateStep_mapping_ne ctx rest _ u.path
        (fun u' h hbad =>
          hnd.1 (hbad ▸ List.mem_map.mpr ⟨u', h, rfl⟩))]
      simp only [updateStep, if_neg hf0]
      rw [objGet_objSet, if_pos rfl]
    · have hne : ¬ u0.path = u.path := by
        intro hbad
        exact hnd.1 (hbad ▸ List.mem_map.mpr ⟨u, hu, rfl⟩)
      have hpres : objGet (updateStep ctx st u0).mapping u.path =
          objGet st.mapping u.path := by
        simp only [updateStep, if_neg hf0]
        rw [objGet_objSet, if_neg (fun h => hne h.symm)]
      rw [ih _ (fun u' h => hok u' (List.mem_cons_of_mem _ h)) hnd.2 u hu,
        hpres]

theorem remoteDelete_mem_ids {rem : List VectorStoreFile}
    {id a : String} :
    a ∈ (remoteDelete rem id).map (fun r => r.id) ↔
      a ∈ rem.map (fun r => r.id) ∧ ¬ a = id := by
  simp only [remoteDelete, List.mem_map, List.mem_filter]
  constructor
  · rintro ⟨r, ⟨hr, hne⟩, rfl⟩
    exact ⟨⟨r, hr, rfl⟩, by simpa using hne⟩
  · rintro ⟨⟨r, hr, rfl⟩, hne⟩
    exact ⟨r, ⟨hr, by simpa using hne⟩, rfl⟩

theorem foldl_deleteStep_fields (ctx : RunCtx) :
    ∀ (dels : List (String × String)) (st : RunState),
      (∀ d ∈ dels, ctx.failDelete d.2 = false) →
      ((dels.foldl (deleteStep ctx) st).added = st.added)
      ∧ ((dels.foldl (deleteStep ctx) st).updated = st.updated)
      ∧ ((dels.foldl (deleteStep ctx) st).deleted =
          st.deleted ++ dels.map (fun d => d.2))
      ∧ ((dels.foldl (deleteStep ctx) st).failed = st.failed)
      ∧ ((dels.foldl (deleteStep ctx) st).nextId = st.nextId) := by
  intro dels
  induction dels with
  | nil => intro st _; simp
  | cons d rest ih =>
    intro st hok
    have hok0 : ctx.failDelete d.2 = false := hok d (List.mem_cons_self _ _)
    have hf0 : ¬ (ctx.failDelete d.2 = true) := by simp [hok0]
    have hstep : deleteStep ctx st d =
        { st with
            remote := remoteDelete st.remote d.1,
            mapping := objDelete st.mapping d.2,
            deleted := st.deleted ++ [d.2] } := by
      simp only [deleteStep, if_neg hf0]
    rw [List.foldl_cons, hstep]
    obtain ⟨h1, h2, h3, h4, h5⟩ := ih _
      (fun d' h => hok d' (List.mem_cons_of_mem _ h))
    refine ⟨by simpa using h1, by simpa using h2, ?_,
      by simpa using h4, by simpa using h5⟩
    rw [h3]
    simp [List.append_assoc]

theorem foldl_deleteStep_mapping_ne (ctx : RunCtx) :
    ∀ (dels : List (String × String)) (st : RunState) (q : String),
      (∀ d ∈ dels, ¬ d.2 = q) →
      objGet (dels.foldl (deleteStep ctx) st).mapping q =
        objGet st.mapping q := by
  intro dels
  induction dels with
  | nil => intro st q _; rfl
  | cons d rest ih =>
    intro st q hne
    rw [List.foldl_cons,
      ih _ q (fun d' h => hne d' (List.mem_cons_of_mem _ h))]
    by_cases hf : ctx.failDelete d.2
    · simp [deleteStep, hf]
    · simp only [deleteStep, if_neg hf]
      rw [objGet_objDelete,
        if_neg (fun h => hne d (List.mem_cons_self _ _) h.symm)]

theorem foldl_deleteStep_remote_ids (ctx : RunCtx) :
    ∀ (dels : List (String × String)) (st : RunState),
      (∀ d ∈ dels, ctx.failDelete d.2 = false) →
      ∀ a, a ∈ (dels.foldl (deleteStep ctx) st).remote.map (fun r => r.id) ↔
        (a ∈ st.remote.map (fun r => r.id) ∧ ∀ d ∈ dels, ¬ a = d.1) := by
  intro dels
  induction dels with
  | nil => intro st _ a; simp
  | cons d rest ih =>
    intro st hok a
    have hok0 : ctx.failDelete d.2 = false := hok d (List.mem_cons_self _ _)
    rw [List.foldl_cons,
      ih _ (fun d' h => hok d' (List.mem_cons_of_mem _ h)) a]
    have hrm : (deleteStep ctx st d).remote = remoteDelete st.remote d.1 := by
      simp [deleteStep, hok0]
    rw [hrm]
    rw [remoteDelete_mem_ids]
    constructor
    · rintro ⟨⟨h1, h2⟩, h3⟩
      refine ⟨h1, ?_⟩
      intro d' hd'
      rcases List.mem_cons.mp hd' with rfl | hd'
      · exact h2
      · exact h3 d' hd'
    · rintro ⟨h1, h2⟩
      exact ⟨⟨h1, h2 d (List.mem_cons_self _ _)⟩,
        fun d' hd' => h2 d' (List.mem_cons_of_mem _ hd')⟩

/-! ## Second-run analysis -/

/-- When every local file's entry resolves with an equal fingerprint, and
the stored identifiers are distinct, the whole loop classifies unchanged
and claims exactly those identifiers. -/
theorem runLoop_all_unchanged (files : List (String × FileEntry)) :
    ∀ (locals : List LocalFile) (m : List (String × VectorStoreFile)),
      (∀ lf ∈ locals, ∃ e, objGet files lf.path = some e ∧
          e.metadata.hash = lf.metadata.hash ∧ e.fileId ∈ objKeys m) →
      ((locals.map (entryIdOf files)).Nodup) →
      (runLoop files locals m).toAdd = []
      ∧ (runLoop files locals m).toUpdate = []
      ∧ (runLoop files locals m).unchanged =
          locals.map (fun lf => (lf.path, entryIdOf files lf))
      ∧ (∀ a, a ∈ objKeys (runLoop files locals m).remoteMap ↔
          (a ∈ objKeys m ∧ a ∉ locals.map (entryIdOf files))) := by
  intro locals
  induction locals with
  | nil =>
    intro m _ _
    exact ⟨rfl, rfl, rfl, by simp [runLoop]⟩
  | cons lf rest ih =>
    intro m h1 h2
    obtain ⟨e, he, hh, hk⟩ := h1 lf (List.mem_cons_self _ _)
    have hid : entryIdOf files lf = e.fileId := by
      simp [entryIdOf, he]
    obtain ⟨r, hr⟩ := Option.isSome_iff_exists.mp (objGet_isSome_iff.mpr hk)
    have hstep : compareStep files ⟨[], [], [], m⟩ lf =
        ⟨[], [], [(lf.path, e.fileId)], objDelete m e.fileId⟩ := by
      simp [compareStep, he, hr, hh]
    simp only [List.map_cons, List.nodup_cons] at h2
    have h1' : ∀ lf' ∈ rest, ∃ e', objGet files lf'.path = some e' ∧
        e'.metadata.hash = lf'.metadata.hash ∧
        e'.fileId ∈ objKeys (objDelete m e.fileId) := by
      intro lf' hlf'
      obtain ⟨e', he', hh', hk'⟩ := h1 lf' (List.mem_cons_of_mem _ hlf')
      refine ⟨e', he', hh', mem_objKeys_objDelete.mpr ⟨hk', ?_⟩⟩
      intro hbad
      apply h2.1
      rw [hid, ← hbad]
      refine List.mem_map.mpr ⟨lf', hlf', ?_⟩
      simp [entryIdOf, he']
    obtain ⟨i1, i2, i3, i4⟩ := ih (objDelete m e.fileId) h1' h2.2
    rw [runLoop_cons, hstep]
    refine ⟨by simp [i1], by simp [i2], ?_, ?_⟩
    · simp only [List.map_cons]
      rw [hid]
      simpa using i3
    · intro a
      simp only
      rw [i4, mem_objKeys_objDelete, List.map_cons, List.mem_cons, hid]
      constructor
      · rintro ⟨⟨hm, hne⟩, hrest⟩
        exact ⟨hm, fun hbad => hbad.elim (fun h => hne h) (fun h => hrest h)⟩
      · rintro ⟨hm, hno⟩
        exact ⟨⟨hm, fun h => hno (Or.inl h)⟩, fun h => hno (Or.inr h)⟩

/-- The classified-path counts of a plan equal the local-path counts. -/
theorem compareFiles_path_count (files : List (String × FileEntry))
    (locals : List LocalFile) (remotes : List VectorStoreFile)
    (q : String) :
    (toAddPaths (compareFiles files locals remotes)).count q +
      ((toUpdatePaths (compareFiles files locals remotes)).count q +
        (unchangedPaths (compareFiles files locals remotes)).count q)
      = (locals.map (fun lf => lf.path)).count q := by
  have h := runLoop_path_count files locals (buildRemoteMap remotes) q
  rw [← pathsConcat_compareFiles] at h
  simpa [List.count_append] using h

theorem classified_nodup (files : List (String × FileEntry))
    (locals : List LocalFile) (remotes : List VectorStoreFile)
    (hnd : (locals.map (fun lf => lf.path)).Nodup) :
    (toAddPaths (compareFiles files locals remotes)).Nodup
    ∧ (toUpdatePaths (compareFiles files locals remotes)).Nodup
    ∧ ((toUpdatePaths (compareFiles files locals remotes) ++
        unchangedPaths (compareFiles files locals remotes))).Nodup := by
  rw [List.nodup_iff_count_le_one] at hnd
  refine ⟨?_, ?_, ?_⟩ <;> rw [List.nodup_iff_count_le_one] <;> intro q <;>
    have h := compareFiles_path_count files locals remotes q <;>
    have hle := hnd q
  · omega
  · omega
  · simp only [List.count_append]
    omega

theorem classified_disjoint (files : List (String × FileEntry))
    (locals : List LocalFile) (remotes : List VectorStoreFile)
    (hnd : (locals.map (fun lf => lf.path)).Nodup) :
    (∀ p ∈ toAddPaths (compareFiles files locals remotes),
      p ∉ toUpdatePaths (compareFiles files locals remotes)
      ∧ p ∉ unchangedPaths (compareFiles files locals remotes))
    ∧ (∀ p ∈ toUpdatePaths (compareFiles files locals remotes),
      p ∉ unchangedPaths (compareFiles files locals remotes)) := by
  rw [List.nodup_iff_count_le_one] at hnd
  constructor
  · intro p hp
    have h1 : 0 < (toAddPaths (compareFiles files locals remotes)).count p :=
      List.count_pos_iff.mpr hp
    have h := compareFiles_path_count files locals remotes p
    have hle := hnd p
    constructor
    · intro hbad
      have h2 : 0 <
          (toUpdatePaths (compareFiles files locals remotes)).count p :=
        List.count_pos_iff.mpr hbad
      omega
    · intro hbad
      have h2 : 0 <
          (unchangedPaths (compareFiles files locals remotes)).count p :=
        List.count_pos_iff.mpr hbad
      omega
  · intro p hp
    have h1 : 0 < (toUpdatePaths (compareFiles files locals remotes)).count p :=
      List.count_pos_iff.mpr hp
    have h := compareFiles_path_count files locals remotes p
    have hle := hnd p
    intro hbad
    have h2 : 0 < (unchangedPaths (compareFiles files locals remotes)).count p :=
      List.count_pos_iff.mpr hbad
    omega

/-- Every local file is classified, and (given distinct local paths) its
classified record carries its own path, metadata and resolved entry. -/
theorem local_classification (files : List (String × FileEntry))
    (locals : List LocalFile) (remotes : List VectorStoreFile)
    (hnd : (locals.map (fun lf => lf.path)).Nodup) :
    ∀ lf ∈ locals,
      lf ∈ (compareFiles files locals remotes).toAdd
      ∨ (∃ e, objGet files lf.path = some e ∧
          (⟨lf.path, lf.metadata, e.fileId⟩ : UpdateItem) ∈
            (compareFiles files locals remotes).toUpdate ∧
          ¬ e.metadata.hash = lf.metadata.hash)
      ∨ (∃ e, objGet files lf.path = some e ∧
          (lf.path, e.fileId) ∈ (compareFiles files locals remotes).unchanged ∧
          e.metadata.hash = lf.metadata.hash) := by
  intro lf hlf
  have hinj := List.inj_on_of_nodup_map hnd
  have hc := compareFiles_path_count files locals remotes lf.path
  have hpos : 0 < (locals.map (fun lf => lf.path)).count lf.path :=
    List.count_pos_iff.mpr (List.mem_map.mpr ⟨lf, hlf, rfl⟩)
  have : 0 < (toAddPaths (compareFiles files locals remotes)).count lf.path
      ∨ 0 < (toUpdatePaths (compareFiles files locals remotes)).count lf.path
      ∨ 0 < (unchangedPaths (compareFiles files locals remotes)).count lf.path := by
    omega
  rcases this with h | h | h
  · left
    obtain ⟨lf', hlf', hpath⟩ :=
      List.mem_map.mp (List.count_pos_iff.mp h)
    have hloc : lf' ∈ locals :=
      runLoop_toAdd_sound files locals (buildRemoteMap remotes) lf' hlf'
    have : lf' = lf := hinj hloc hlf hpath
    exact this ▸ hlf'
  · right; left
    obtain ⟨u, hu, hpath⟩ := List.mem_map.mp (List.count_pos_iff.mp h)
    obtain ⟨lf', hlf', e, he, hu_eq, hne⟩ :=
      runLoop_toUpdate_sound files locals (buildRemoteMap remotes) u hu
    have hp : lf'.path = lf.path := by rw [hu_eq] at hpath; exact hpath
    have : lf' = lf := hinj hlf' hlf hp
    subst this
    exact ⟨e, he, hu_eq ▸ hu, hne⟩
  · right; right
    obtain ⟨pr, hpr, hpath⟩ := List.mem_map.mp (List.count_pos_iff.mp h)
    obtain ⟨lf', hlf', e, he, hpr_eq, heq⟩ :=
      runLoop_unchanged_sound files locals (buildRemoteMap remotes) pr hpr
    have hp : lf'.path = lf.path := by rw [hpr_eq] at hpath; exact hpath
    have : lf' = lf := hinj hlf' hlf hp
    subst this
    exact ⟨e, he, hpr_eq ▸ hpr, heq⟩

theorem toDeleteIds_sub_remote (files : List (String × FileEntry))
    (locals : List LocalFile) (remotes : List VectorStoreFile) :
    ∀ a ∈ toDeleteIds (compareFiles files locals remotes),
      a ∈ remotes.map (fun r => r.id) := by
  rw [toDeleteIds_compareFiles]
  intro a ha
  exact mem_objKeys_buildRemoteMap.mp
    ((objKeys_sublist_of_sublist
      (runLoop_remoteMap_sublist files locals (buildRemoteMap remotes))).subset
      ha)

/-- Complete characterization of the state a fully successful run leaves
behind: result lists, the identifiers of the produced remote listing, and
the mapping value at every path. -/
theorem runSync_success_facts
    (files : List (String × FileEntry)) (locals : List LocalFile)
    (remotes : List VectorStoreFile)
    (enrich : LocalFile → FileMetadata) (fid : Nat → String)
    (now errMsg : String)
    (hnd : (locals.map (fun lf => lf.path)).Nodup)
    (hdel : ∀ d ∈ (compareFiles files locals remotes).toDelete,
        d.2 ∉ locals.map (fun lf => lf.path)) :
    ∀ ctx, ctx = noFailCtx enrich fid now errMsg →
    ∀ st, st = runSync ctx files locals remotes →
    ∀ c, c = compareFiles files locals remotes →
    (st.added = toAddPaths c ∧ st.updated = toUpdatePaths c ∧
      st.deleted = c.toDelete.map (fun d => d.2) ∧ st.failed = [])
    ∧ (∀ a, a ∈ st.remote.map (fun r => r.id) ↔
        ((a ∈ remotes.map (fun r => r.id) ∨
          a ∈ (addEntries ctx 0 c.toAdd).map (fun pe => pe.2.fileId)) ∧
         ∀ d ∈ c.toDelete, ¬ a = d.1))
    ∧ (∀ lf ∈ locals,
        (lf ∈ c.toAdd ∧ ∃ pe ∈ addEntries ctx 0 c.toAdd, pe.1 = lf.path ∧
          objGet st.mapping lf.path = some pe.2 ∧
          pe.2.metadata = enrich lf ∧ pe.2.version = 1)
        ∨ (∃ e₀, objGet files lf.path = some e₀ ∧
            (⟨lf.path, lf.metadata, e₀.fileId⟩ : UpdateItem) ∈ c.toUpdate ∧
            objGet st.mapping lf.path =
              some ⟨e₀.fileId, enrich ⟨lf.path, lf.metadata⟩, now,
                e₀.version + 1⟩)
        ∨ (∃ e₀, objGet files lf.path = some e₀ ∧
            (lf.path, e₀.fileId) ∈ c.unchanged ∧
            e₀.metadata.hash = lf.metadata.hash ∧
            objGet st.mapping lf.path = some e₀))
    ∧ (∀ q, q ∉ locals.map (fun lf => lf.path) →
        (∀ d ∈ c.toDelete, ¬ d.2 = q) →
        objGet st.mapping q = objGet files q) := by
  intro ctx hctx st hst c hc
  subst hctx hst hc
  set c := compareFiles files locals remotes with hc
  have hok : ∀ (p : String),
      (noFailCtx enrich fid now errMsg).failAdd p = false := fun _ => rfl
  obtain ⟨hndA, hndU, hndUC⟩ := classified_nodup files locals remotes hnd
  obtain ⟨hdisjA, hdisjU⟩ := classified_disjoint files locals remotes hnd
  set ctx := noFailCtx enrich fid now errMsg with hctx
  set st0 : RunState := ⟨files, remotes, [], [], [], [], 0⟩ with hst0
  set st1 := c.toAdd.foldl (addStep ctx) st0 with hst1
  set st2 := c.toUpdate.foldl (updateStep ctx) st1 with hst2
  have hrun : runSync ctx files locals remotes =
      c.toDelete.foldl (deleteStep ctx) st2 := rfl
  obtain ⟨hA_rem, hA_added, hA_upd, hA_del, hA_fail, hA_next⟩ :=
    foldl_addStep_fields ctx c.toAdd st0 (fun _ _ => rfl)
  have hAmap := foldl_addStep_mapping ctx c.toAdd st0 (fun _ _ => rfl) hndA
  obtain ⟨hU_ids, hU_added, hU_upd, hU_del, hU_fail, hU_next⟩ :=
    foldl_updateStep_fields ctx c.toUpdate st1 (fun _ _ => rfl)
  have hUmem := foldl_updateStep_mapping_mem ctx c.toUpdate st1
    (fun _ _ => rfl) hndU
  obtain ⟨hD_added, hD_upd, hD_del, hD_fail, hD_next⟩ :=
    foldl_deleteStep_fields ctx c.toDelete st2 (fun _ _ => rfl)
  have hDids := foldl_deleteStep_remote_ids ctx c.toDelete st2
    (fun _ _ => rfl)
  have hnext0 : st0.nextId = 0 := rfl
  have hmap0 : st0.mapping = files := rfl
  have hrem0 : st0.remote = remotes := rfl
  -- the delete pass never touches a live local path
  have hdelskip : ∀ q, q ∈ locals.map (fun lf => lf.path) →
      objGet (c.toDelete.foldl (deleteStep ctx) st2).mapping q =
        objGet st2.mapping q := by
    intro q hq
    exact foldl_deleteStep_mapping_ne ctx c.toDelete st2 q
      (fun d hd hbad => hdel d hd (hbad ▸ hq))
  refine ⟨⟨?_, ?_, ?_, ?_⟩, ?_, ?_, ?_⟩
  · rw [hrun, hD_added, hU_added, hA_added, hst0]
    rfl
  · rw [hrun, hD_upd, hU_upd, hA_upd, hst0]
    rfl
  · rw [hrun, hD_del, hU_del, hA_del, hst0]
    rfl
  · rw [hrun, hD_fail, hU_fail, hA_fail, hst0]
  · -- remote identifiers of the final listing
    intro a
    rw [hrun, hDids a, hU_ids]
    have h1 : st1.remote.map (fun r => r.id) =
        remotes.map (fun r => r.id) ++
          (addEntries ctx 0 c.toAdd).map (fun pe => pe.2.fileId) := by
      rw [hA_rem, hrem0, hnext0]
      simp [List.map_map]
    rw [h1]
    simp [List.mem_append]
  · -- per-local-file mapping value
    intro lf hlf
    have hq : lf.path ∈ locals.map (fun lf => lf.path) :=
      List.mem_map.mpr ⟨lf, hlf, rfl⟩
    rcases local_classification files locals remotes hnd lf hlf with
      hA | ⟨e₀, he₀, hu, hne⟩ | ⟨e₀, he₀, hpr, heq⟩
    · left
      refine ⟨hA, ?_⟩
      obtain ⟨i, _, hget⟩ := addEntries_objGet ctx 0 c.toAdd hndA lf hA
      refine ⟨(lf.path, ⟨ctx.fid i, ctx.enrich lf, ctx.now, 1⟩),
        objGet_mem hget, rfl, ?_, rfl, rfl⟩
      rw [hrun, hdelskip _ hq,
        foldl_updateStep_mapping_ne ctx c.toUpdate st1 lf.path
          (fun u huu hbad =>
            (hdisjA lf.path (List.mem_map.mpr ⟨lf, hA, rfl⟩)).1
              (hbad ▸ List.mem_map.mpr ⟨u, huu, rfl⟩)),
        hAmap lf.path, hnext0, hget]
    · right; left
      refine ⟨e₀, he₀, hu, ?_⟩
      have hupath : lf.path ∈ toUpdatePaths c :=
        List.mem_map.mpr ⟨⟨lf.path, lf.metadata, e₀.fileId⟩, hu, rfl⟩
      have hnotA : lf.path ∉ toAddPaths c := by
        intro hbad
        exact (hdisjA lf.path hbad).1 hupath
      have hst1get : objGet st1.mapping lf.path = objGet files lf.path := by
        rw [hAmap lf.path, hnext0]
        have : objGet (addEntries ctx 0 c.toAdd) lf.path = none := by
          rw [objGet_eq_none_iff, objKeys_addEntries]
          exact hnotA
        rw [this, hmap0]
      have := hUmem ⟨lf.path, lf.metadata, e₀.fileId⟩ hu
      rw [hst1get, he₀] at this
      rw [hrun, hdelskip _ hq, this]
      rfl
    · right; right
      refine ⟨e₀, he₀, hpr, heq, ?_⟩
      have hcpath : lf.path ∈ unchangedPaths c :=
        List.mem_map.mpr ⟨(lf.path, e₀.fileId), hpr, rfl⟩
      have hnotA : lf.path ∉ toAddPaths c := by
        intro hbad
        exact (hdisjA lf.path hbad).2 hcpath
      have hnotU : lf.path ∉ toUpdatePaths c := by
        intro hbad
        exact hdisjU lf.path hbad hcpath
      rw [hrun, hdelskip _ hq,
        foldl_updateStep_mapping_ne ctx c.toUpdate st1 lf.path
          (fun u huu hbad =>
            hnotU (hbad ▸ List.mem_map.mpr ⟨u, huu, rfl⟩)),
        hAmap lf.path, hnext0]
      have : objGet (addEntries ctx 0 c.toAdd) lf.path = none := by
        rw [objGet_eq_none_iff, objKeys_addEntries]
        exact hnotA
      rw [this, hmap0, he₀]
  · -- untouched paths
    intro q hq hqdel
    have hnotA : q ∉ toAddPaths c := by
      intro hbad
      obtain ⟨lf', hlf', rfl⟩ := List.mem_map.mp hbad
      exact hq (List.mem_map.mpr
        ⟨lf', runLoop_toAdd_sound files locals (buildRemoteMap remotes)
          lf' hlf', rfl⟩)
    have hnotU : ∀ u ∈ c.toUpdate, ¬ u.path = q := by
      intro u huu hbad
      obtain ⟨lf', hlf', _, _, hueq, _⟩ :=
        runLoop_toUpdate_sound files locals (buildRemoteMap remotes) u huu
      apply hq
      rw [← hbad, hueq]
      exact List.mem_map.mpr ⟨lf', hlf', rfl⟩
    rw [hrun,
      foldl_deleteStep_mapping_ne ctx c.toDelete st2 q
        (fun d hd hbad => hqdel d hd hbad),
      foldl_updateStep_mapping_ne ctx c.toUpdate st1 q hnotU,
      hAmap q, hnext0]
    have : objGet (addEntries ctx 0 c.toAdd) q = none := by
      rw [objGet_eq_none_iff, objKeys_addEntries]
      exact hnotA
    rw [this, hmap0]

/-- C4 (amended): reconciliation is idempotent after a fully successful
run, PROVIDED no to-delete entry of the run resolves its reported path to a
live local path (a stale remote object whose embedded path metadata names a
current local file makes the delete pass remove that path's fresh mapping
entry — see the counterexample).  Under that proviso — with distinct local
paths, an injective provider identifier supply that never collides with
existing remote identifiers, and hash-preserving metadata enrichment (the
adapter contract of spec §4.5) — comparing the saved mapping, the same
local files and the produced remote listing yields empty to-add, to-update
and to-delete sets and places every local path in unchanged. -/
theorem runSync_idempotent
    (files : List (String × FileEntry)) (locals : List LocalFile)
    (remotes : List VectorStoreFile)
    (enrich : LocalFile → FileMetadata) (fid : Nat → String)
    (now errMsg : String)
    (hnd : (locals.map (fun lf => lf.path)).Nodup)
    (hinj : Function.Injective fid)
    (hfresh : ∀ i, fid i ∉ remotes.map (fun r => r.id))
    (henrich : ∀ lf, (enrich lf).hash = lf.metadata.hash)
    (hdel : ∀ d ∈ (compareFiles files locals remotes).toDelete,
        d.2 ∉ locals.map (fun lf => lf.path)) :
    ∀ st, st = runSync (noFailCtx enrich fid now errMsg) files locals remotes →
    (compareFiles st.mapping locals st.remote).toAdd = []
    ∧ (compareFiles st.mapping locals st.remote).toUpdate = []
    ∧ (compareFiles st.mapping locals st.remote).toDelete = []
    ∧ unchangedPaths (compareFiles st.mapping locals st.remote) =
        locals.map (fun lf => lf.path) := by
  intro st hst
  set ctx := noFailCtx enrich fid now errMsg with hctx
  set c := compareFiles files locals remotes with hc
  obtain ⟨_, hRid, hper, _⟩ :=
    runSync_success_facts files locals remotes enrich fid now errMsg hnd hdel
      ctx rfl st hst c rfl
  obtain ⟨hclNodup, hclSub, hclNotFinal⟩ :=
    runLoop_claimed_inv files locals (buildRemoteMap remotes)
  obtain ⟨hndA, hndU, hndUC⟩ := classified_nodup files locals remotes hnd
  obtain ⟨hdisjA, hdisjU⟩ := classified_disjoint files locals remotes hnd
  have hpathinj := List.inj_on_of_nodup_map hnd
  have hfidinj : Function.Injective ctx.fid := hinj
  -- the claimed pairs of the plan, and the pair lists' key facts
  set cps : List (String × String) :=
    c.toUpdate.map (fun u => (u.path, u.fileId)) ++ c.unchanged with hcps
  have hcps_snd : cps.map (fun pr => pr.2) =
      loopClaimed (runLoop files locals (buildRemoteMap remotes)) := by
    rw [hcps]
    simp [loopClaimed, List.map_map]
    rfl
  have hcps_fst : cps.map (fun pr => pr.1) =
      toUpdatePaths c ++ unchangedPaths c := by
    rw [hcps]
    simp [toUpdatePaths, unchangedPaths, List.map_map]
  have hcps_fst_nodup : (cps.map (fun pr => pr.1)).Nodup := by
    rw [hcps_fst]; exact hndUC
  have hcps_snd_nodup : (cps.map (fun pr => pr.2)).Nodup := by
    rw [hcps_snd]; exact hclNodup
  have hcps_loc : ∀ pr ∈ cps, ∃ lf' ∈ locals, lf'.path = pr.1 := by
    intro pr hpr
    rcases List.mem_append.mp hpr with h | h
    · obtain ⟨u, hu, rfl⟩ := List.mem_map.mp h
      obtain ⟨lf', hlf', _, _, hueq, _⟩ :=
        runLoop_toUpdate_sound files locals (buildRemoteMap remotes) u hu
      exact ⟨lf', hlf', by rw [hueq]⟩
    · obtain ⟨lf', hlf', _, _, hpreq, _⟩ :=
        runLoop_unchanged_sound files locals (buildRemoteMap remotes) pr h
      exact ⟨lf', hlf', by rw [hpreq]⟩
  have hcps_remote : ∀ pr ∈ cps, pr.2 ∈ remotes.map (fun r => r.id) := by
    intro pr hpr
    have : pr.2 ∈ loopClaimed (runLoop files locals (buildRemoteMap remotes)) := by
      rw [← hcps_snd]
      exact List.mem_map.mpr ⟨pr, hpr, rfl⟩
    exact mem_objKeys_buildRemoteMap.mp (hclSub _ this)
  have hcps_notdel : ∀ pr ∈ cps, ∀ d ∈ c.toDelete, ¬ pr.2 = d.1 := by
    intro pr hpr d hd hbad
    have hcl : pr.2 ∈ loopClaimed (runLoop files locals (buildRemoteMap remotes)) := by
      rw [← hcps_snd]
      exact List.mem_map.mpr ⟨pr, hpr, rfl⟩
    apply hclNotFinal _ hcl
    rw [← toDeleteIds_compareFiles]
    rw [hbad]
    exact List.mem_map.mpr ⟨d, hd, rfl⟩
  -- the add-pair list
  set aps : List (String × String) :=
    (addEntries ctx 0 c.toAdd).map (fun pe => (pe.1, pe.2.fileId)) with haps
  have haps_fst : aps.map (fun pr => pr.1) = toAddPaths c := by
    rw [haps]
    simp only [List.map_map]
    have := objKeys_addEntries ctx 0 c.toAdd
    simpa [objKeys, Function.comp] using this
  have haps_snd : aps.map (fun pr => pr.2) =
      (addEntries ctx 0 c.toAdd).map (fun pe => pe.2.fileId) := by
    rw [haps]; simp [List.map_map]
  have haps_fst_nodup : (aps.map (fun pr => pr.1)).Nodup := by
    rw [haps_fst]; exact hndA
  have haps_snd_nodup : (aps.map (fun pr => pr.2)).Nodup := by
    rw [haps_snd]
    exact addEntries_ids_nodup ctx hfidinj 0 c.toAdd
  have haps_fresh : ∀ pr ∈ aps, pr.2 ∉ remotes.map (fun r => r.id) := by
    intro pr hpr
    have : pr.2 ∈ (addEntries ctx 0 c.toAdd).map (fun pe => pe.2.fileId) := by
      rw [← haps_snd]
      exact List.mem_map.mpr ⟨pr, hpr, rfl⟩
    exact addEntries_ids_fresh ctx _ hfresh 0 c.toAdd pr.2 this
  -- packaged per-local-file facts
  have hfacts : ∀ lf ∈ locals, ∃ e, objGet st.mapping lf.path = some e
      ∧ e.metadata.hash = lf.metadata.hash
      ∧ e.fileId ∈ st.remote.map (fun r => r.id)
      ∧ ((lf.path, e.fileId) ∈ aps ∨ (lf.path, e.fileId) ∈ cps) := by
    intro lf hlf
    rcases hper lf hlf with
      ⟨hA, pe, hpe, hkey, hget, hmd, _⟩ | ⟨e₀, he₀, hu, hget⟩ |
      ⟨e₀, he₀, hpr, hh, hget⟩
    · have hpair : (lf.path, pe.2.fileId) ∈ aps := by
        rw [haps]
        exact List.mem_map.mpr ⟨pe, hpe, by rw [hkey]⟩
      refine ⟨pe.2, hget, by rw [hmd]; exact henrich lf, ?_, Or.inl hpair⟩
      refine (hRid pe.2.fileId).mpr ⟨Or.inr ?_, ?_⟩
      · rw [← haps_snd]
        exact List.mem_map.mpr ⟨(lf.path, pe.2.fileId), hpair, rfl⟩
      · intro d hd hbad
        apply haps_fresh (lf.path, pe.2.fileId) hpair
        show pe.2.fileId ∈ _
        rw [hbad]
        exact toDeleteIds_sub_remote files locals remotes d.1
          (List.mem_map.mpr ⟨d, hd, rfl⟩)
    · have hpair : (lf.path, e₀.fileId) ∈ cps := by
        rw [hcps]
        exact List.mem_append_left _ (List.mem_map.mpr
          ⟨⟨lf.path, lf.metadata, e₀.fileId⟩, hu, rfl⟩)
      refine ⟨_, hget, henrich ⟨lf.path, lf.metadata⟩, ?_, Or.inr hpair⟩
      exact (hRid e₀.fileId).mpr
        ⟨Or.inl (hcps_remote _ hpair), hcps_notdel _ hpair⟩
    · have hpair : (lf.path, e₀.fileId) ∈ cps := by
        rw [hcps]
        exact List.mem_append_right _ hpr
      refine ⟨e₀, hget, hh, ?_, Or.inr hpair⟩
      exact (hRid e₀.fileId).mpr
        ⟨Or.inl (hcps_remote _ hpair), hcps_notdel _ hpair⟩
  have heid : ∀ (lf : LocalFile) (e : FileEntry),
      objGet st.mapping lf.path = some e →
      entryIdOf st.mapping lf = e.fileId := by
    intro lf e h
    simp [entryIdOf, h]
  -- hypothesis (1) of the all-unchanged lemma
  have h1 : ∀ lf ∈ locals, ∃ e, objGet st.mapping lf.path = some e ∧
      e.metadata.hash = lf.metadata.hash ∧
      e.fileId ∈ objKeys (buildRemoteMap st.remote) := by
    intro lf hlf
    obtain ⟨e, hget, hh, hid, _⟩ := hfacts lf hlf
    exact ⟨e, hget, hh, mem_objKeys_buildRemoteMap.mpr hid⟩
  -- hypothesis (2): the stored identifiers are pairwise distinct
  have h2 : (locals.map (entryIdOf st.mapping)).Nodup := by
    refine List.Nodup.map_on ?_ (List.Nodup.of_map _ hnd)
    intro x hx y hy hxy
    obtain ⟨ex, hgx, _, _, hgroupx⟩ := hfacts x hx
    obtain ⟨ey, hgy, _, _, hgroupy⟩ := hfacts y hy
    rw [heid x ex hgx, heid y ey hgy] at hxy
    rcases hgroupx with hgx' | hgx' <;> rcases hgroupy with hgy' | hgy'
    · have := List.inj_on_of_nodup_map haps_snd_nodup hgx' hgy'
        (show (x.path, ex.fileId).2 = (y.path, ey.fileId).2 from hxy)
      exact hpathinj hx hy (congrArg (fun pr => pr.1) this)
    · exfalso
      apply haps_fresh _ hgx'
      show ex.fileId ∈ _
      rw [hxy]
      exact hcps_remote _ hgy'
    · exfalso
      apply haps_fresh _ hgy'
      show ey.fileId ∈ _
      rw [← hxy]
      exact hcps_remote _ hgx'
    · have := List.inj_on_of_nodup_map hcps_snd_nodup hgx' hgy'
        (show (x.path, ex.fileId).2 = (y.path, ey.fileId).2 from hxy)
      exact hpathinj hx hy (congrArg (fun pr => pr.1) this)
  -- every identifier of the produced listing is stored by some local path
  have h4 : ∀ a ∈ objKeys (buildRemoteMap st.remote),
      a ∈ locals.map (entryIdOf st.mapping) := by
    intro a ha
    obtain ⟨hsrc, hnotdel⟩ := (hRid a).mp (mem_objKeys_buildRemoteMap.mp ha)
    have hfromPair : ∀ pr, (pr ∈ aps ∨ pr ∈ cps) → pr.2 = a →
        a ∈ locals.map (entryIdOf st.mapping) := by
      intro pr hpr hpra
      obtain ⟨lf', hlf', hpath⟩ : ∃ lf' ∈ locals, lf'.path = pr.1 := by
        rcases hpr with h | h
        · obtain ⟨pe, hpe, rfl⟩ := List.mem_map.mp (haps ▸ h)
          obtain ⟨lf₀, hlf₀, _, _, rfl⟩ := addEntries_mem ctx 0 c.toAdd pe hpe
          exact ⟨lf₀,
            runLoop_toAdd_sound files locals (buildRemoteMap remotes) lf₀ hlf₀,
            rfl⟩
        · exact hcps_loc pr h
      obtain ⟨e, hget, _, _, hgroup⟩ := hfacts lf' hlf'
      -- the fact's pair and `pr` share a first component, hence are equal
      have hsame : (lf'.path, e.fileId) = pr := by
        rcases hpr with h | h <;> rcases hgroup with h' | h'
        · exact List.inj_on_of_nodup_map haps_fst_nodup h' h
            (show (lf'.path, e.fileId).1 = pr.1 from hpath)
        · exfalso
          have h1' : lf'.path ∈ toAddPaths c := by
            rw [← haps_fst]
            exact List.mem_map.mpr ⟨pr, h, hpath.symm⟩
          have h2' : lf'.path ∈ toUpdatePaths c ++ unchangedPaths c := by
            rw [← hcps_fst]
            exact List.mem_map.mpr ⟨(lf'.path, e.fileId), h', rfl⟩
          rcases List.mem_append.mp h2' with hbad | hbad
          · exact (hdisjA _ h1').1 hbad
          · exact (hdisjA _ h1').2 hbad
        · exfalso
          have h1' : lf'.path ∈ toAddPaths c := by
            rw [← haps_fst]
            exact List.mem_map.mpr ⟨(lf'.path, e.fileId), h', rfl⟩
          have h2' : lf'.path ∈ toUpdatePaths c ++ unchangedPaths c := by
            rw [← hcps_fst]
            exact List.mem_map.mpr ⟨pr, h, hpath.symm⟩
          rcases List.mem_append.mp h2' with hbad | hbad
          · exact (hdisjA _ h1').1 hbad
          · exact (hdisjA _ h1').2 hbad
        · exact List.inj_on_of_nodup_map hcps_fst_nodup h' h
            (show (lf'.path, e.fileId).1 = pr.1 from hpath)
      refine List.mem_map.mpr ⟨lf', hlf', ?_⟩
      rw [heid lf' e hget]
      have : e.fileId = pr.2 := congrArg (fun pr => pr.2) hsame
      rw [this, hpra]
    rcases hsrc with hrem | hAE
    · have hkey : a ∈ objKeys (buildRemoteMap remotes) :=
        mem_objKeys_buildRemoteMap.mpr hrem
      rcases runLoop_key_cases files locals (buildRemoteMap remotes) a hkey
        with hkf | hcl
      · exfalso
        have : a ∈ toDeleteIds c := by
          rw [toDeleteIds_compareFiles]
          exact hkf
        obtain ⟨d, hd, hda⟩ := List.mem_map.mp this
        exact hnotdel d hd hda.symm
      · obtain ⟨pr, hpr, hpra⟩ : ∃ pr ∈ cps, pr.2 = a := by
          have : a ∈ cps.map (fun pr => pr.2) := by rw [hcps_snd]; exact hcl
          obtain ⟨pr, hpr, hpra⟩ := List.mem_map.mp this
          exact ⟨pr, hpr, hpra⟩
        exact hfromPair pr (Or.inr hpr) hpra
    · obtain ⟨pr, hpr, hpra⟩ : ∃ pr ∈ aps, pr.2 = a := by
        have : a ∈ aps.map (fun pr => pr.2) := by rw [haps_snd]; exact hAE
        obtain ⟨pr, hpr, hpra⟩ := List.mem_map.mp this
        exact ⟨pr, hpr, hpra⟩
      exact hfromPair pr (Or.inl hpr) hpra
  -- run the second comparison
  obtain ⟨hA2, hU2, hC2, hK2⟩ :=
    runLoop_all_unchanged st.mapping locals (buildRemoteMap st.remote) h1 h2
  have hmapnil : (runLoop st.mapping locals (buildRemoteMap st.remote)).remoteMap
      = [] := by
    have hkeysnil : objKeys
        (runLoop st.mapping locals (buildRemoteMap st.remote)).remoteMap = [] := by
      rw [List.eq_nil_iff_forall_not_mem]
      intro a hmem
      obtain ⟨hin, hnotin⟩ := (hK2 a).mp hmem
      exact hnotin (h4 a hin)
    cases h : (runLoop st.mapping locals (buildRemoteMap st.remote)).remoteMap with
    | nil => rfl
    | cons p rest => rw [h] at hkeysnil; simp [objKeys] at hkeysnil
  refine ⟨hA2, hU2, ?_, ?_⟩
  · rw [compareFiles_eq_runLoop]
    simp [hmapnil]
  · rw [unchangedPaths, compareFiles_eq_runLoop]
    simp only [hC2, List.map_map]
    rfl

/-- Counterexample to C4 as the claim states it.  One local file `p`,
already synced (entry `A`, equal fingerprints); the remote store also holds
a stale object `B` whose embedded path metadata says `p`.  The run succeeds
fully (`failed = []`): `p` is classified unchanged and `B` is deleted — but
the delete pass resolves `B`'s path to `p` and removes `p`'s mapping entry.
Comparing again with the saved mapping and the produced listing classifies
`p` as to-add (and `A` as to-delete), not unchanged: the second run's
to-add set is nonempty and its unchanged set is empty. -/
theorem runSync_idempotent_counterexample :
    ((runSync (noFailCtx (fun lf => lf.metadata)
          (fun n => "N" ++ toString n) "t2" "err")
        [("p", ⟨"A", ⟨"p", "h", 1, "t", "md"⟩, "t", 1⟩)]
        [⟨"p", ⟨"p", "h", 1, "t", "md"⟩⟩]
        [⟨"A", ⟨"p", "h", 1, "t", "md"⟩⟩,
         ⟨"B", ⟨"p", "zz", 1, "t", "md"⟩⟩]).failed = [])
    ∧ ¬ ((compareFiles
        (runSync (noFailCtx (fun lf => lf.metadata)
            (fun n => "N" ++ toString n) "t2" "err")
          [("p", ⟨"A", ⟨"p", "h", 1, "t", "md"⟩, "t", 1⟩)]
          [⟨"p", ⟨"p", "h", 1, "t", "md"⟩⟩]
          [⟨"A", ⟨"p", "h", 1, "t", "md"⟩⟩,
           ⟨"B", ⟨"p", "zz", 1, "t", "md"⟩⟩]).mapping
        [⟨"p", ⟨"p", "h", 1, "t", "md"⟩⟩]
        (runSync (noFailCtx (fun lf => lf.metadata)
            (fun n => "N" ++ toString n) "t2" "err")
          [("p", ⟨"A", ⟨"p", "h", 1, "t", "md"⟩, "t", 1⟩)]
          [⟨"p", ⟨"p", "h", 1, "t", "md"⟩⟩]
          [⟨"A", ⟨"p", "h", 1, "t", "md"⟩⟩,
           ⟨"B", ⟨"p", "zz", 1, "t", "md"⟩⟩]).remote).toAdd = [])
    ∧ (compareFiles
        (runSync (noFailCtx (fun lf => lf.metadata)
            (fun n => "N" ++ toString n) "t2" "err")
          [("p", ⟨"A", ⟨"p", "h", 1, "t", "md"⟩, "t", 1⟩)]
          [⟨"p", ⟨"p", "h", 1, "t", "md"⟩⟩]
          [⟨"A", ⟨"p", "h", 1, "t", "md"⟩⟩,
           ⟨"B", ⟨"p", "zz", 1, "t", "md"⟩⟩]).mapping
        [⟨"p", ⟨"p", "h", 1, "t", "md"⟩⟩]
        (runSync (noFailCtx (fun lf => lf.metadata)
            (fun n => "N" ++ toString n) "t2" "err")
          [("p", ⟨"A", ⟨"p", "h", 1, "t", "md"⟩, "t", 1⟩)]
          [⟨"p", ⟨"p", "h", 1, "t", "md"⟩⟩]
          [⟨"A", ⟨"p", "h", 1, "t", "md"⟩⟩,
           ⟨"B", ⟨"p", "zz", 1, "t", "md"⟩⟩]).remote).unchanged
        = ([] : List (String × String)) := by
  decide

/-- Witness for the amended C4 at a concrete input: a fresh file is added
by the first run, and the second comparison leaves everything unchanged. -/
theorem runSync_idempotent_witness :
    (compareFiles
        (runSync (noFailCtx (fun lf => lf.metadata)
            (fun n => String.mk (List.replicate n 'x')) "t1" "err")
          [] [⟨"a.md", ⟨"a.md", "h1", 1, "t0", "md"⟩⟩] []).mapping
        [⟨"a.md", ⟨"a.md", "h1", 1, "t0", "md"⟩⟩]
        (runSync (noFailCtx (fun lf => lf.metadata)
            (fun n => String.mk (List.replicate n 'x')) "t1" "err")
          [] [⟨"a.md", ⟨"a.md", "h1", 1, "t0", "md"⟩⟩] []).remote).toAdd = []
    ∧ unchangedPaths (compareFiles
        (runSync (noFailCtx (fun lf => lf.metadata)
            (fun n => String.mk (List.replicate n 'x')) "t1" "err")
          [] [⟨"a.md", ⟨"a.md", "h1", 1, "t0", "md"⟩⟩] []).mapping
        [⟨"a.md", ⟨"a.md", "h1", 1, "t0", "md"⟩⟩]
        (runSync (noFailCtx (fun lf => lf.metadata)
            (fun n => String.mk (List.replicate n 'x')) "t1" "err")
          [] [⟨"a.md", ⟨"a.md", "h1", 1, "t0", "md"⟩⟩] []).remote)
      = ["a.md"] := by
  have h := runSync_idempotent [] [⟨"a.md", ⟨"a.md", "h1", 1, "t0", "md"⟩⟩] []
    (fun lf => lf.metadata) (fun n => String.mk (List.replicate n 'x'))
    "t1" "err"
    (by decide)
    (fun a b hab => by
      have := congrArg (fun s => s.data.length) hab
      simpa using this)
    (fun i h => by simp at h)
    (fun lf => rfl)
    (by decide)
    _ rfl
  refine ⟨h.1, ?_⟩
  rw [h.2.2.2]
  rfl

/-! ## Partial-failure isolation (C5) -/

theorem runLoop_empty_files :
    ∀ (locals : List LocalFile) (m : List (String × VectorStoreFile)),
      runLoop [] locals m = ⟨locals, [], [], m⟩ := by
  intro locals
  induction locals with
  | nil => intro m; rfl
  | cons lf rest ih =>
    intro m
    rw [runLoop_cons]
    have hstep : compareStep [] ⟨[], [], [], m⟩ lf = ⟨[lf], [], [], m⟩ := by
      simp [compareStep, objGet]
    rw [hstep, ih m]
    rfl

/-- With no persisted state and an empty remote store, every local file is
classified to-add. -/
theorem compareFiles_fresh (locals : List LocalFile) :
    compareFiles [] locals [] =
      { toAdd := locals, toUpdate := [], toDelete := [], unchanged := [] } := by
  rw [compareFiles_eq_runLoop]
  have h : buildRemoteMap [] = [] := rfl
  rw [h, runLoop_empty_files locals []]
  rfl

/-- The addition pass with arbitrary per-path failures: paths whose upload
succeeds are recorded in `added` (and only those), each failing path is
recorded once in `failed` with the error message, and the other result
lists are untouched. -/
theorem foldl_addStep_general (ctx : RunCtx) :
    ∀ (adds : List LocalFile) (st : RunState),
      ((adds.foldl (addStep ctx) st).added = st.added ++
        ((adds.map (fun lf => lf.path)).filter (fun p => !ctx.failAdd p)))
      ∧ ((adds.foldl (addStep ctx) st).failed = st.failed ++
        ((adds.map (fun lf => lf.path)).filter
            (fun p => ctx.failAdd p)).map (fun p => (p, ctx.errMsg)))
      ∧ ((adds.foldl (addStep ctx) st).updated = st.updated)
      ∧ ((adds.foldl (addStep ctx) st).deleted = st.deleted) := by
  intro adds
  induction adds with
  | nil => intro st; simp
  | cons lf rest ih =>
    intro st
    rw [List.foldl_cons]
    by_cases hf : ctx.failAdd lf.path
    · have hstep : addStep ctx st lf =
          { st with failed := st.failed ++ [(lf.path, ctx.errMsg)] } := by
        simp [addStep, hf]
      rw [hstep]
      obtain ⟨h1, h2, h3, h4⟩ :=
        ih { st with failed := st.failed ++ [(lf.path, ctx.errMsg)] }
      refine ⟨?_, ?_, by simpa using h3, by simpa using h4⟩
      · rw [h1]
        simp only [List.map_cons, List.filter_cons]
        have : ctx.failAdd lf.path = true := by
          cases h : ctx.failAdd lf.path
          · exact absurd h.symm (by simpa [h] using hf)
          · rfl
        simp [this]
      · rw [h2]
        simp only [List.map_cons, List.filter_cons]
        have : ctx.failAdd lf.path = true := by
          cases h : ctx.failAdd lf.path
          · exact absurd h.symm (by simpa [h] using hf)
          · rfl
        simp [this, List.append_assoc]
    · have hf' : ctx.failAdd lf.path = false := by
        cases h : ctx.failAdd lf.path
        · rfl
        · exact absurd h hf
      have hstep : addStep ctx st lf =
          { st with
              mapping := objSet st.mapping lf.path
                ⟨ctx.fid st.nextId, ctx.enrich lf, ctx.now, 1⟩,
              remote := st.remote ++ [⟨ctx.fid st.nextId, ctx.enrich lf⟩],
              added := st.added ++ [lf.path],
              nextId := st.nextId + 1 } := by
        simp [addStep, hf']
      rw [hstep]
      obtain ⟨h1, h2, h3, h4⟩ :=
        ih { st with
              mapping := objSet st.mapping lf.path
                ⟨ctx.fid st.nextId, ctx.enrich lf, ctx.now, 1⟩,
              remote := st.remote ++ [⟨ctx.fid st.nextId, ctx.enrich lf⟩],
              added := st.added ++ [lf.path],
              nextId := st.nextId + 1 }
      refine ⟨?_, ?_, by simpa using h3, by simpa using h4⟩
      · rw [h1]
        simp only [List.map_cons, List.filter_cons, hf']
        simp [List.append_assoc]
      · rw [h2]
        simp only [List.map_cons, List.filter_cons, hf']
        simp [List.append_assoc]

/-- The mapping keys after the addition pass: one key per successfully
added path, appended in order (when the incoming keys are disjoint from the
added paths). -/
theorem foldl_addStep_keys (ctx : RunCtx) :
    ∀ (adds : List LocalFile) (st : RunState),
      ((adds.map (fun lf => lf.path)).Nodup) →
      (∀ lf ∈ adds, lf.path ∉ objKeys st.mapping) →
      objKeys (adds.foldl (addStep ctx) st).mapping =
        objKeys st.mapping ++
          ((adds.map (fun lf => lf.path)).filter (fun p => !ctx.failAdd p)) := by
  intro adds
  induction adds with
  | nil => intro st _ _; simp
  | cons lf rest ih =>
    intro st hnd habs
    simp only [List.map_cons, List.nodup_cons] at hnd
    rw [List.foldl_cons]
    by_cases hf : ctx.failAdd lf.path
    · have hstep : addStep ctx st lf =
          { st with failed := st.failed ++ [(lf.path, ctx.errMsg)] } := by
        simp [addStep, hf]
      rw [hstep]
      have := ih { st with failed := st.failed ++ [(lf.path, ctx.errMsg)] }
        hnd.2 (fun lf' h => habs lf' (List.mem_cons_of_mem _ h))
      rw [this]
      simp only [List.map_cons, List.filter_cons, hf]
      simp
    · have hf' : ctx.failAdd lf.path = false := by
        cases h : ctx.failAdd lf.path
        · rfl
        · exact absurd h hf
      have hstep : addStep ctx st lf =
          { st with
              mapping := objSet st.mapping lf.path
                ⟨ctx.fid st.nextId, ctx.enrich lf, ctx.now, 1⟩,
              remote := st.remote ++ [⟨ctx.fid st.nextId, ctx.enrich lf⟩],
              added := st.added ++ [lf.path],
              nextId := st.nextId + 1 } := by
        simp [addStep, hf']
      rw [hstep]
      have hany : (st.mapping.any (fun p => p.1 = lf.path)) = false := by
        cases h : st.mapping.any (fun p => p.1 = lf.path)
        · rfl
        · exact absurd (any_key_iff.mp h) (habs lf (List.mem_cons_self _ _))
      have hkeys : objKeys (objSet st.mapping lf.path
          (⟨ctx.fid st.nextId, ctx.enrich lf, ctx.now, 1⟩ : FileEntry)) =
          objKeys st.mapping ++ [lf.path] := by
        rw [objKeys_objSet, hany]
        simp
      have hrest := ih { st with
          mapping := objSet st.mapping lf.path
            ⟨ctx.fid st.nextId, ctx.enrich lf, ctx.now, 1⟩,
          remote := st.remote ++ [⟨ctx.fid st.nextId, ctx.enrich lf⟩],
          added := st.added ++ [lf.path],
          nextId := st.nextId + 1 }
        hnd.2 (fun lf' h => by
          show lf'.path ∉ objKeys (objSet st.mapping lf.path
            (⟨ctx.fid st.nextId, ctx.enrich lf, ctx.now, 1⟩ : FileEntry))
          rw [mem_objKeys_objSet]
          rintro (hbad | hbad)
          · exact habs lf' (List.mem_cons_of_mem _ h) hbad
          · exact hnd.1 (hbad ▸ List.mem_map.mpr ⟨lf', h, rfl⟩))
      rw [hrest]
      show objKeys (objSet st.mapping lf.path
          (⟨ctx.fid st.nextId, ctx.enrich lf, ctx.now, 1⟩ : FileEntry)) ++ _ = _
      rw [hkeys]
      simp only [List.map_cons, List.filter_cons, hf']
      simp [List.append_assoc]

theorem filter_eq_singleton_of_nodup {l : List String} {a : String}
    (hnd : l.Nodup) (ha : a ∈ l) :
    l.filter (fun p => p = a) = [a] := by
  induction l with
  | nil => simp at ha
  | cons b rest ih =>
    simp only [List.nodup_cons] at hnd
    rcases List.mem_cons.mp ha with rfl | ha
    · rw [List.filter_cons]
      simp only [decide_eq_true_eq, if_pos rfl]
      have : rest.filter (fun p => p = a) = [] := by
        rw [List.filter_eq_nil_iff]
        intro b hb
        simp only [decide_eq_true_eq]
        intro hbad
        exact hnd.1 (hbad ▸ hb)
      simp [this]
    · have hne : ¬ (b = a) := by
        intro hbad
        exact hnd.1 (hbad ▸ ha)
      rw [List.filter_cons]
      simp only [hne, decide_False]
      simpa using ih hnd.2 ha

theorem length_filter_ne_add (l : List String) (bad : String) :
    (l.filter (fun p => p = bad)).length +
      (l.filter (fun p => ¬ p = bad)).length = l.length := by
  induction l with
  | nil => rfl
  | cons a rest ih =>
    rw [List.filter_cons, List.filter_cons]
    by_cases h : a = bad <;> simp [h, decide_not] at ih ⊢ <;> omega

/-- C5: scoped failures are isolated.  N fresh files are synced (no prior
state, empty remote store, so all N are classified to-add); exactly one of
them — path `bad` — fails its upload, and every other operation succeeds.
The run completes (the model is a total function: a scoped failure only
appends to `failed` and moves on, it never aborts), reporting the other
N−1 paths in `added` in scan order and exactly one `(bad, errMsg)` entry in
`failed`; the State Store's mapping holds entries exactly for the N−1
successful paths — none is created for the failed path. -/
theorem sync_partial_failure
    (locals : List LocalFile) (bad : String)
    (enrich : LocalFile → FileMetadata) (fid : Nat → String)
    (now errMsg : String)
    (hnd : (locals.map (fun lf => lf.path)).Nodup)
    (hbad : bad ∈ locals.map (fun lf => lf.path)) :
    ∀ ctx, ctx = (⟨enrich, fid, now, errMsg, fun p => p = bad,
        fun _ => false, fun _ => false⟩ : RunCtx) →
    ∀ st, st = runSync ctx [] locals [] →
    st.added = (locals.map (fun lf => lf.path)).filter (fun p => ¬ p = bad)
    ∧ st.failed = [(bad, errMsg)]
    ∧ objKeys st.mapping = st.added
    ∧ st.added.length + 1 = locals.length
    ∧ st.updated = [] ∧ st.deleted = [] := by
  intro ctx hctx st hst
  subst hctx hst
  set ctx : RunCtx := ⟨enrich, fid, now, errMsg, fun p => p = bad,
    fun _ => false, fun _ => false⟩ with hctx
  have hrun : runSync ctx [] locals [] =
      locals.foldl (addStep ctx) ⟨[], [], [], [], [], [], 0⟩ := by
    unfold runSync runPlan
    rw [compareFiles_fresh locals]
    rfl
  have hfilterNot : ∀ (l : List String),
      l.filter (fun p => !(ctx.failAdd p)) = l.filter (fun p => ¬ p = bad) := by
    intro l
    apply List.filter_congr
    intro p _
    show (!(decide (p = bad))) = decide (¬ p = bad)
    rw [decide_not]
  have hfilterYes : ∀ (l : List String),
      l.filter (fun p => ctx.failAdd p) = l.filter (fun p => p = bad) := by
    intro l
    apply List.filter_congr
    intro p _
    rfl
  obtain ⟨hadd, hfail, hupd, hdele⟩ :=
    foldl_addStep_general ctx locals ⟨[], [], [], [], [], [], 0⟩
  have hkeys := foldl_addStep_keys ctx locals ⟨[], [], [], [], [], [], 0⟩
    hnd (by intro lf _ h; simp [objKeys] at h)
  have hsingle : (locals.map (fun lf => lf.path)).filter (fun p => p = bad)
      = [bad] := filter_eq_singleton_of_nodup hnd hbad
  have haddval : (runSync ctx [] locals []).added =
      (locals.map (fun lf => lf.path)).filter (fun p => ¬ p = bad) := by
    rw [hrun, hadd, hfilterNot]
    rfl
  refine ⟨haddval, ?_, ?_, ?_, ?_, ?_⟩
  · rw [hrun, hfail, hfilterYes, hsingle]
    rfl
  · rw [hrun, hkeys, hfilterNot, ← hrun, haddval]
    rfl
  · rw [haddval]
    have hlen := length_filter_ne_add (locals.map (fun lf => lf.path)) bad
    rw [hsingle] at hlen
    simp only [List.length_map, List.length_singleton] at hlen ⊢
    omega
  · rw [hrun, hupd]
  · rw [hrun, hdele]

/-- Witness for C5: three fresh files, the middle one fails its upload. -/
theorem sync_partial_failure_witness :
    (runSync (⟨fun lf => lf.metadata, fun _ => "F", "t0", "boom",
        fun p => p = "b.md", fun _ => false, fun _ => false⟩ : RunCtx)
      [] [⟨"a.md", ⟨"a.md", "h1", 1, "t", "md"⟩⟩,
          ⟨"b.md", ⟨"b.md", "h2", 1, "t", "md"⟩⟩,
          ⟨"c.md", ⟨"c.md", "h3", 1, "t", "md"⟩⟩] []).added
      = ["a.md", "c.md"]
    ∧ (runSync (⟨fun lf => lf.metadata, fun _ => "F", "t0", "boom",
        fun p => p = "b.md", fun _ => false, fun _ => false⟩ : RunCtx)
      [] [⟨"a.md", ⟨"a.md", "h1", 1, "t", "md"⟩⟩,
          ⟨"b.md", ⟨"b.md", "h2", 1, "t", "md"⟩⟩,
          ⟨"c.md", ⟨"c.md", "h3", 1, "t", "md"⟩⟩] []).failed
      = [("b.md", "boom")]
    ∧ objKeys (runSync (⟨fun lf => lf.metadata, fun _ => "F", "t0", "boom",
        fun p => p = "b.md", fun _ => false, fun _ => false⟩ : RunCtx)
      [] [⟨"a.md", ⟨"a.md", "h1", 1, "t", "md"⟩⟩,
          ⟨"b.md", ⟨"b.md", "h2", 1, "t", "md"⟩⟩,
          ⟨"c.md", ⟨"c.md", "h3", 1, "t", "md"⟩⟩] []).mapping
      = ["a.md", "c.md"] := by
  have h := sync_partial_failure
    [⟨"a.md", ⟨"a.md", "h1", 1, "t", "md"⟩⟩,
     ⟨"b.md", ⟨"b.md", "h2", 1, "t", "md"⟩⟩,
     ⟨"c.md", ⟨"c.md", "h3", 1, "t", "md"⟩⟩] "b.md"
    (fun lf => lf.metadata) (fun _ => "F") "t0" "boom"
    (by decide) (by decide) _ rfl _ rfl
  refine ⟨?_, h.2.1, ?_⟩
  · rw [h.1]
    rfl
  · rw [h.2.2.1, h.1]
    rfl

/-! ## Monotonic versioning (C6) -/

/-- C6 (amended): after a fully successful run — with distinct local paths
and no to-delete entry resolving to a live local path — a path placed in
to-add holds a SyncEntry with version 1 (INCLUDING a re-add of a path whose
entry was still in the mapping: when the remote object vanished, the file
is re-classified to-add and `setFileEntry` overwrites the surviving entry
with version 1, a reset the original claim rules out — see the
counterexample); a path updated via a carried-forward identifier holds the
prior entry's version plus exactly 1; an unchanged path keeps its entry
verbatim; and a path the run never touches keeps its persisted entry. -/
theorem runSync_versioning
    (files : List (String × FileEntry)) (locals : List LocalFile)
    (remotes : List VectorStoreFile)
    (enrich : LocalFile → FileMetadata) (fid : Nat → String)
    (now errMsg : String)
    (hnd : (locals.map (fun lf => lf.path)).Nodup)
    (hdel : ∀ d ∈ (compareFiles files locals remotes).toDelete,
        d.2 ∉ locals.map (fun lf => lf.path)) :
    ∀ ctx, ctx = noFailCtx enrich fid now errMsg →
    ∀ st, st = runSync ctx files locals remotes →
    ∀ c, c = compareFiles files locals remotes →
    (∀ lf ∈ locals, lf ∈ c.toAdd →
        ∃ e, objGet st.mapping lf.path = some e ∧ e.version = 1)
    ∧ (∀ lf ∈ locals, ∀ e₀, objGet files lf.path = some e₀ →
        (⟨lf.path, lf.metadata, e₀.fileId⟩ : UpdateItem) ∈ c.toUpdate →
        ∃ e, objGet st.mapping lf.path = some e ∧
          e.version = e₀.version + 1)
    ∧ (∀ lf ∈ locals, ∀ e₀, objGet files lf.path = some e₀ →
        (lf.path, e₀.fileId) ∈ c.unchanged →
        objGet st.mapping lf.path = some e₀)
    ∧ (∀ q, q ∉ locals.map (fun lf => lf.path) →
        (∀ d ∈ c.toDelete, ¬ d.2 = q) →
        objGet st.mapping q = objGet files q) := by
  intro ctx hctx st hst c hc
  obtain ⟨-, -, hper, huntouched⟩ :=
    runSync_success_facts files locals remotes enrich fid now errMsg hnd hdel
      ctx hctx st hst c hc
  obtain ⟨hdisjA, hdisjU⟩ := classified_disjoint files locals remotes hnd
  rw [← hc] at hdisjA hdisjU
  refine ⟨?_, ?_, ?_, huntouched⟩
  · intro lf hlf hA
    rcases hper lf hlf with ⟨-, pe, hpemem, hpe1, hget, hmd, hv⟩ |
        ⟨e₁, he₁, hu₁, hget⟩ | ⟨e₁, he₁, hpr₁, hhash, hget⟩
    · exact ⟨pe.2, hget, hv⟩
    · exact absurd
        (List.mem_map.mpr ⟨⟨lf.path, lf.metadata, e₁.fileId⟩, hu₁, rfl⟩)
        (hdisjA lf.path (List.mem_map.mpr ⟨lf, hA, rfl⟩)).1
    · exact absurd
        (List.mem_map.mpr ⟨(lf.path, e₁.fileId), hpr₁, rfl⟩)
        (hdisjA lf.path (List.mem_map.mpr ⟨lf, hA, rfl⟩)).2
  · intro lf hlf e₀ he₀ hu
    rcases hper lf hlf with ⟨hA, -⟩ | ⟨e₁, he₁, hu₁, hget⟩ |
        ⟨e₁, he₁, hpr₁, hhash, hget⟩
    · exact absurd
        (List.mem_map.mpr ⟨⟨lf.path, lf.metadata, e₀.fileId⟩, hu, rfl⟩)
        (hdisjA lf.path (List.mem_map.mpr ⟨lf, hA, rfl⟩)).1
    · have heq : e₁ = e₀ := by
        rw [he₁] at he₀
        exact Option.some_inj.mp he₀
      subst heq
      exact ⟨_, hget, rfl⟩
    · exact absurd
        (List.mem_map.mpr ⟨(lf.path, e₁.fileId), hpr₁, rfl⟩)
        (hdisjU lf.path
          (List.mem_map.mpr ⟨⟨lf.path, lf.metadata, e₀.fileId⟩, hu, rfl⟩))
  · intro lf hlf e₀ he₀ hpr
    rcases hper lf hlf with ⟨hA, -⟩ | ⟨e₁, he₁, hu₁, hget⟩ |
        ⟨e₁, he₁, hpr₁, hhash, hget⟩
    · exact absurd
        (List.mem_map.mpr ⟨(lf.path, e₀.fileId), hpr, rfl⟩)
        (hdisjA lf.path (List.mem_map.mpr ⟨lf, hA, rfl⟩)).2
    · exact absurd
        (List.mem_map.mpr ⟨(lf.path, e₀.fileId), hpr, rfl⟩)
        (hdisjU lf.path
          (List.mem_map.mpr ⟨⟨lf.path, lf.metadata, e₁.fileId⟩, hu₁, rfl⟩))
    · have heq : e₁ = e₀ := by
        rw [he₁] at he₀
        exact Option.some_inj.mp he₀
      subst heq
      exact hget

/-- Counterexample to C6 as the claim states it.  The mapping holds an
entry for `a.md` at version 3 (fileId `X`), but the remote object `X` has
vanished (empty listing), so the file is classified to-add.  The run
succeeds fully, and `setFileEntry` overwrites the still-existing entry in
place: its version drops from 3 to 1 — a reset while the entry exists in
the mapping, which the claim forbids. -/
theorem runSync_versioning_counterexample :
    ((objGet [("a.md",
        (⟨"X", ⟨"a.md", "h", 1, "t", "md"⟩, "t", 3⟩ : FileEntry))]
        "a.md").map (fun e => e.version) = some 3)
    ∧ ((runSync (noFailCtx (fun lf => lf.metadata)
          (fun n => "N" ++ toString n) "t2" "err")
        [("a.md", ⟨"X", ⟨"a.md", "h", 1, "t", "md"⟩, "t", 3⟩)]
        [⟨"a.md", ⟨"a.md", "h", 1, "t", "md"⟩⟩] []).failed = [])
    ∧ ((objGet (runSync (noFailCtx (fun lf => lf.metadata)
          (fun n => "N" ++ toString n) "t2" "err")
        [("a.md", ⟨"X", ⟨"a.md", "h", 1, "t", "md"⟩, "t", 3⟩)]
        [⟨"a.md", ⟨"a.md", "h", 1, "t", "md"⟩⟩] []).mapping
        "a.md").map (fun e => e.version) = some 1) := by
  decide

/-- Witness for the amended C6 at a concrete input: `u.md` is persisted at
version 4 with a live remote object and a changed fingerprint; the run
updates it and the saved entry has version 5. -/
theorem runSync_versioning_witness :
    (objGet (runSync (noFailCtx (fun lf => lf.metadata)
          (fun n => "N" ++ toString n) "t2" "err")
        [("u.md", ⟨"X", ⟨"u.md", "h0", 1, "t0", "md"⟩, "t0", 4⟩)]
        [⟨"u.md", ⟨"u.md", "h1", 1, "t1", "md"⟩⟩]
        [⟨"X", ⟨"u.md", "h0", 1, "t0", "md"⟩⟩]).mapping
      "u.md").map (fun e => e.version) = some 5 := by
  have h := runSync_versioning
    [("u.md", ⟨"X", ⟨"u.md", "h0", 1, "t0", "md"⟩, "t0", 4⟩)]
    [⟨"u.md", ⟨"u.md", "h1", 1, "t1", "md"⟩⟩]
    [⟨"X", ⟨"u.md", "h0", 1, "t0", "md"⟩⟩]
    (fun lf => lf.metadata) (fun n => "N" ++ toString n) "t2" "err"
    (by decide) (by decide) _ rfl _ rfl _ rfl
  obtain ⟨e, hget, hv⟩ := h.2.1
    ⟨"u.md", ⟨"u.md", "h1", 1, "t1", "md"⟩⟩ (by decide)
    ⟨"X", ⟨"u.md", "h0", 1, "t0", "md"⟩, "t0", 4⟩ (by decide) (by decide)
  rw [hget]
  simp [hv]

/-! ## Fault-tolerant state loading (C7) -/

/-- C7: state loading never fails fatally.  With no cached document, a
missing or unparseable persisted file makes the file backend's `load()`
return the freshly-initialized document, whose mapping is empty; and any
failure of the history-backed read — branch bootstrap failure, failing
`git show` (no such ref / not a repository), empty payload, or a payload
the parser rejects — makes the git-branch backend's `load()` return
exactly the file backend's `load()`. -/
theorem load_never_fails
    (cache : Option StoredMetadata) (disk : FileReadResult) (now : String)
    (ensureOk : Bool) (gitShow : Option String)
    (parse : String → Option StoredMetadata) :
    (cache = none →
      disk = FileReadResult.missing ∨ disk = FileReadResult.unparseable →
      fileLoad cache disk now = freshMetadata now
      ∧ (fileLoad cache disk now).files = [])
    ∧ ((ensureOk = false ∨ gitShow = none ∨ gitShow = some ""
        ∨ (∀ s, gitShow = some s → ¬ s = "" → parse s = none)) →
      gitBranchLoad ensureOk gitShow parse cache disk now =
        fileLoad cache disk now) := by
  constructor
  · intro hc hd
    subst hc
    rcases hd with hd | hd <;> subst hd <;> exact ⟨rfl, rfl⟩
  · intro hfail
    rcases hfail with h | h | h | h
    · subst h
      rfl
    · subst h
      cases ensureOk <;> rfl
    · subst h
      cases ensureOk <;> rfl
    · cases ensureOk with
      | false => rfl
      | true =>
        cases hg : gitShow with
        | none => rfl
        | some out =>
          show (if out = "" then fileLoad cache disk now
            else match parse out with
              | some m => m
              | none => fileLoad cache disk now) = fileLoad cache disk now
          by_cases hout : out = ""
          · rw [if_pos hout]
          · rw [if_neg hout, h out hg hout]

/-- Witness for C7: no cache, missing file, and a git backend whose
bootstrap failed: the file backend yields the fresh empty document and the
git backend falls back to it. -/
theorem load_never_fails_witness :
    fileLoad none FileReadResult.missing "t0" = freshMetadata "t0"
    ∧ (fileLoad none FileReadResult.missing "t0").files = []
    ∧ gitBranchLoad false none (fun _ => none) none
        FileReadResult.missing "t0" =
      fileLoad none FileReadResult.missing "t0" := by
  have h := load_never_fails none FileReadResult.missing "t0" false none
    (fun _ => none)
  obtain ⟨h1, h2⟩ := h.1 rfl (Or.inl rfl)
  exact ⟨h1, h2, h.2 (Or.inl rfl)⟩

/-! ## File-backend save (C8) -/

/-- Counterexample to C8 as the claim states it: on a concrete save the
trace is exactly `[mkdir dir, writeFile metadataPath doc]` — the single
write targets the destination path itself, and the trace holds no rename
at all, so there is no write-to-temp-then-atomic-rename step. -/
theorem save_atomic_counterexample :
    saveModel ".vectornator/metadata.json" ".vectornator"
        (some ⟨"1.0.0", "t0", none, []⟩) "t1" (fun _ => "doc")
      = some (⟨"1.0.0", "t1", none, []⟩,
          [FsOp.mkdirRecursive ".vectornator",
           FsOp.writeFile ".vectornator/metadata.json" "doc"])
    ∧ ([FsOp.mkdirRecursive ".vectornator",
        FsOp.writeFile ".vectornator/metadata.json" "doc"] : List FsOp).filter
        isRename = [] := by
  decide

/-- C8 (amended): the file backend's `save()` stamps `lastSync`, ensures
the parent directory, and issues exactly one write — of the complete
serialized document, directly to the destination path, with NO temporary
file and NO rename; with no loaded document it throws instead of writing.
The write is complete (one operation carrying the whole document) but not
atomic: a concurrent reader of the destination can observe a partial
document during the in-place write. -/
theorem save_single_direct_write
    (p dir now : String) (m : StoredMetadata)
    (serialize : StoredMetadata → String) :
    ∀ r, saveModel p dir (some m) now serialize = some r →
      r.1 = { m with lastSync := now }
      ∧ r.2 = [FsOp.mkdirRecursive dir,
          FsOp.writeFile p (serialize { m with lastSync := now })]
      ∧ (∀ op ∈ r.2, isRename op = false)
      ∧ saveModel p dir none now serialize = none := by
  intro r hr
  have hr2 : r = ({ m with lastSync := now },
      [FsOp.mkdirRecursive dir,
       FsOp.writeFile p (serialize { m with lastSync := now })]) := by
    have : some r = some ({ m with lastSync := now },
        [FsOp.mkdirRecursive dir,
         FsOp.writeFile p (serialize { m with lastSync := now })]) := by
      rw [← hr]
      rfl
    exact Option.some_inj.mp this
  subst hr2
  refine ⟨rfl, rfl, ?_, rfl⟩
  intro op hop
  rcases List.mem_cons.mp hop with h | h
  · subst h
    rfl
  · rcases List.mem_cons.mp h with h | h
    · subst h
      rfl
    · cases h

/-- Witness for the amended C8 at a concrete input: the issued write is
not a rename, and saving with no loaded document throws. -/
theorem save_single_direct_write_witness :
    isRename (FsOp.writeFile ".vectornator/metadata.json" "doc") = false
    ∧ saveModel ".vectornator/metadata.json" ".vectornator" none "t1"
        (fun _ => "doc") = none := by
  have h := save_single_direct_write ".vectornator/metadata.json"
    ".vectornator" "t1" ⟨"1.0.0", "t0", none, []⟩ (fun _ => "doc")
    (⟨"1.0.0", "t1", none, []⟩,
      [FsOp.mkdirRecursive ".vectornator",
       FsOp.writeFile ".vectornator/metadata.json" "doc"]) rfl
  exact ⟨h.2.2.1 (FsOp.writeFile ".vectornator/metadata.json" "doc")
    (by decide), h.2.2.2⟩

/-! ## Git-branch backend and the working tree (C9) -/

/-- Counterexample to C9 as the claim states it: in the reachable state
where the metadata branch does not yet exist, a mere `load()` checks out
an orphan branch, runs `git rm -rf .` and writes a state file into the
working tree — three working-tree modifications. -/
theorem git_branch_worktree_counterexample :
    GitCmd.checkoutOrphan "vectornator-metadata" ∈
      gitLoadOps "vectornator-metadata" "main" "metadata.json" false
    ∧ GitCmd.rmRecursiveForce ∈
      gitLoadOps "vectornator-metadata" "main" "metadata.json" false
    ∧ GitCmd.writeTreeFile "metadata.json" ∈
      gitLoadOps "vectornator-metadata" "main" "metadata.json" false
    ∧ ¬ (gitLoadOps "vectornator-metadata" "main" "metadata.json"
        false).filter modifiesWorkingTree = [] := by
  decide

/-- C9 (amended): once the metadata branch exists, `load()`, `push` and
`fetch` touch the working tree in no way (reads go through `git show`,
transport through `push`/`fetch` of refs), and `save()`'s git path writes
only through the object database — its sole working-tree write is the
sanctioned `super.save()` mirror to the file backend's own path.  When
the branch does NOT yet exist, however, `ensureMetadataBranch` bootstraps
it by checking out an orphan branch, emptying the index and working tree
and writing the state file into it — so the never-touch-the-working-tree
claim only holds after bootstrap. -/
theorem git_branch_worktree_safety (branch cur file : String) :
    ∀ b, b = true →
    (gitLoadOps branch cur file b).filter modifiesWorkingTree = []
    ∧ (gitSaveOps branch cur file b).filter modifiesWorkingTree
        = [GitCmd.mirrorSaveFile file]
    ∧ (gitPushOps branch).filter modifiesWorkingTree = []
    ∧ (gitFetchOps branch).filter modifiesWorkingTree = []
    ∧ GitCmd.checkoutOrphan branch ∉ gitLoadOps branch cur file b
    ∧ GitCmd.rmRecursiveForce ∉ gitSaveOps branch cur file b := by
  intro b hb
  subst hb
  refine ⟨rfl, rfl, rfl, rfl, ?_, ?_⟩
  · simp [gitLoadOps, ensureMetadataBranchOps]
  · simp [gitSaveOps, ensureMetadataBranchOps]

/-- Witness for the amended C9 at a concrete input (branch present). -/
theorem git_branch_worktree_safety_witness :
    (gitLoadOps "vectornator-metadata" "main" "metadata.json"
      true).filter modifiesWorkingTree = []
    ∧ (gitSaveOps "vectornator-metadata" "main" "metadata.json"
        true).filter modifiesWorkingTree
      = [GitCmd.mirrorSaveFile "metadata.json"]
    ∧ (gitPushOps "vectornator-metadata").filter modifiesWorkingTree = []
    ∧ (gitFetchOps "vectornator-metadata").filter modifiesWorkingTree = []
    ∧ GitCmd.checkoutOrphan "vectornator-metadata" ∉
      gitLoadOps "vectornator-metadata" "main" "metadata.json" true
    ∧ GitCmd.rmRecursiveForce ∉
      gitSaveOps "vectornator-metadata" "main" "metadata.json" true :=
  git_branch_worktree_safety "vectornator-metadata" "main" "metadata.json"
    true rfl

/-! ## Cleanup of stale entries (C10) -/

theorem cleanup_objGet (remoteFiles : List VectorStoreFile) (p : String) :
    ∀ files : List (String × FileEntry), (objKeys files).Nodup →
    objGet (cleanup files remoteFiles) p =
      (match objGet files p with
       | some e =>
           if remoteFiles.any (fun r => r.id = e.fileId) then some e
           else none
       | none => none) := by
  intro files
  induction files with
  | nil => intro _; rfl
  | cons a rest ih =>
    intro hnd
    have hnd2 := hnd
    rw [show objKeys (a :: rest) = a.1 :: objKeys rest from rfl,
      List.nodup_cons] at hnd2
    obtain ⟨ha, hrest⟩ := hnd2
    by_cases hk : (remoteFiles.any (fun r => r.id = a.2.fileId)) = true
    · have hstep : cleanup (a :: rest) remoteFiles =
          a :: cleanup rest remoteFiles := by
        simp [cleanup, List.filter_cons, hk]
      rw [hstep, objGet_cons, objGet_cons]
      by_cases hp : a.1 = p
      · simp [hp, hk]
      · simp only [if_neg hp]
        exact ih hrest
    · have hstep : cleanup (a :: rest) remoteFiles =
          cleanup rest remoteFiles := by
        simp [cleanup, List.filter_cons, hk]
      rw [hstep, objGet_cons]
      by_cases hp : a.1 = p
      · simp only [if_pos hp]
        have hnone : objGet (cleanup rest remoteFiles) p = none := by
          rw [objGet_eq_none_iff]
          intro hmem
          exact ha (hp ▸ (objKeys_sublist_of_sublist
            (List.filter_sublist _)).mem hmem)
        rw [hnone]
        simp [hk]
      · simp only [if_neg hp]
        exact ih hrest

/-- C10: `cleanup(remoteFiles)` removes exactly the mapping entries whose
stored remote identifier occurs among no id of `remoteFiles`, returns
every surviving entry verbatim, and never adds entries (its key list is a
sublist of the original): under the JS-object invariant of distinct keys,
looking up any path in the cleaned mapping gives the original entry when
its identifier is still live, and nothing otherwise. -/
theorem cleanup_exact (files : List (String × FileEntry))
    (remoteFiles : List VectorStoreFile) (p : String)
    (hnd : (objKeys files).Nodup) :
    objGet (cleanup files remoteFiles) p =
      (match objGet files p with
       | some e =>
           if remoteFiles.any (fun r => r.id = e.fileId) then some e
           else none
       | none => none)
    ∧ (objKeys (cleanup files remoteFiles)).Sublist (objKeys files) :=
  ⟨cleanup_objGet remoteFiles p files hnd,
   objKeys_sublist_of_sublist (List.filter_sublist _)⟩

/-- Witness for C10: entry `a` (id `X`, still remote) survives unchanged,
entry `b` (id `Y`, vanished) is removed. -/
theorem cleanup_exact_witness :
    objGet (cleanup
        [("a", ⟨"X", ⟨"a", "h1", 1, "t", "md"⟩, "t", 1⟩),
         ("b", ⟨"Y", ⟨"b", "h2", 1, "t", "md"⟩, "t", 2⟩)]
        [⟨"X", ⟨"a", "h1", 1, "t", "md"⟩⟩]) "b" = none
    ∧ (objKeys (cleanup
        [("a", ⟨"X", ⟨"a", "h1", 1, "t", "md"⟩, "t", 1⟩),
         ("b", ⟨"Y", ⟨"b", "h2", 1, "t", "md"⟩, "t", 2⟩)]
        [⟨"X", ⟨"a", "h1", 1, "t", "md"⟩⟩])).Sublist
      (objKeys
        [("a", (⟨"X", ⟨"a", "h1", 1, "t", "md"⟩, "t", 1⟩ : FileEntry)),
         ("b", ⟨"Y", ⟨"b", "h2", 1, "t", "md"⟩, "t", 2⟩)]) := by
  have h := cleanup_exact
    [("a", ⟨"X", ⟨"a", "h1", 1, "t", "md"⟩, "t", 1⟩),
     ("b", ⟨"Y", ⟨"b", "h2", 1, "t", "md"⟩, "t", 2⟩)]
    [⟨"X", ⟨"a", "h1", 1, "t", "md"⟩⟩] "b" (by decide)
  refine ⟨?_, h.2⟩
  rw [h.1]
  rfl

end Vectornator
